import Mathlib

/-!
Verification of the `args-tokens` command-line tokenizer (`parser.ts`) and
resolver (`resolver.ts`).  The TypeScript source is shallowly embedded:
strings are Lean `String`s (inspected through their character lists),
JavaScript `undefined`-able fields become `Option`, the tokenizer's mutable
work-queue loop becomes a fuel-indexed recursion (with a proved fuel bound),
and code that can throw returns `Except`.
-/

namespace ArgsTokens

/-- Argument token kind (`'option' | 'option-terminator' | 'positional'`). -/
inductive ArgTokenKind where
  | option
  | optionTerminator
  | positional
deriving DecidableEq, Repr

/-- Argument token (`ArgToken` interface).  Optional fields of the TS
interface are `Option`; `index` is an `Int` because the loop variable starts
at `-1`. -/
structure ArgToken where
  kind : ArgTokenKind
  index : Int
  name : Option String := none
  rawName : Option String := none
  value : Option String := none
  inlineValue : Option Bool := none
deriving DecidableEq, Repr

/-- JS string truthiness for an optional string (`undefined` and `""` are falsy). -/
def strTruthy : Option String → Bool
  | none => false
  | some s => s ≠ ""

/-- `isShortOption`: `arg.length === 2 && arg[0] === '-' && arg[1] !== '-'`. -/
def isShortOption (arg : String) : Bool :=
  match arg.data with
  | [c0, c1] => c0 = '-' && c1 ≠ '-'
  | _ => false

/-- `isShortOptionGroup`: length above 2, starts with `-`, second char not `-`. -/
def isShortOptionGroup (arg : String) : Bool :=
  match arg.data with
  | c0 :: c1 :: _ :: _ => c0 = '-' && c1 ≠ '-'
  | _ => false

/-- Whether a character list contains `"--"` as a contiguous substring. -/
def containsDashDash : List Char → Bool
  | '-' :: '-' :: _ => true
  | _ :: rest => containsDashDash rest
  | [] => false

/-- `hasLongOptionPrefix`: `arg.length > 2 && ~arg.indexOf('--')`, i.e. the
string is longer than two characters and contains `--` anywhere. -/
def hasLongOptionPrefix (arg : String) : Bool :=
  arg.data.length > 2 && containsDashDash arg.data

/-- `arg.includes('=', 3)`: an `=` occurs at index 3 or later. -/
def includesEqFrom3 (arg : String) : Bool :=
  (arg.data.drop 3).contains '='

/-- `isLongOption`: long-option prefix and no `=` at index 3 or later. -/
def isLongOption (arg : String) : Bool :=
  hasLongOptionPrefix arg && !includesEqFrom3 arg

/-- `isLongOptionAndValue`: long-option prefix and an `=` at index 3 or later. -/
def isLongOptionAndValue (arg : String) : Bool :=
  hasLongOptionPrefix arg && includesEqFrom3 arg

/-- `hasOptionValue(value)`: defined and first code point is not `-`
(the empty string qualifies, since `''.codePointAt(0)` is `undefined`). -/
def hasOptionValue : Option String → Bool
  | none => false
  | some s =>
    match s.data with
    | [] => true
    | c :: _ => c ≠ '-'

/-- `arg.charAt(1)` as the short option name. -/
def shortOptionName (arg : String) : String :=
  match arg.data with
  | _ :: c :: _ => String.mk [c]
  | _ => ""

/-- `arg.slice(2)`. -/
def sliceFrom2 (arg : String) : String :=
  String.mk (arg.data.drop 2)

/-- `arg.indexOf('=')` (the length of the string when absent, which the
callers never hit). -/
def firstEqIndex (arg : String) : Nat :=
  arg.data.findIdx (· = '=')

/-- For `--foo=bar`: the pair `(arg.slice(2, eq), arg.slice(eq + 1))` where
`eq` is the index of the first `=`.  `Nat` subtraction matches the JS
`slice` clamping for `eq < 2`. -/
def longOptionEqSplit (arg : String) : String × String :=
  let i := firstEqIndex arg
  (String.mk ((arg.data.drop 2).take (i - 2)), String.mk (arg.data.drop (i + 1)))

/-- Short-option-group expansion body: one step per character after the
leading `-`, threading `hasShortValueSeparator` (`sep`), the expanded
pseudo-arguments and the pending `shortValue` accumulator. -/
def expandGroupAux (compat : Bool) :
    List Char → Bool → List String → List Char → List String × List Char × Bool
  | [], sep, expanded, shortValue => (expanded, shortValue, sep)
  | c :: cs, sep, expanded, shortValue =>
    if sep then
      expandGroupAux compat cs sep expanded (shortValue ++ [c])
    else if !compat && c = '=' then
      expandGroupAux compat cs true expanded shortValue
    else
      expandGroupAux compat cs sep (expanded ++ [String.mk ['-', c]]) shortValue

/-- Expansion of a short-option group (e.g. `-abc` to `-a -b -c`,
`-f=bar` to `-f bar`), returning the pseudo-argument list and the updated
`hasShortValueSeparator` flag. -/
def expandGroup (compat : Bool) (sep : Bool) (arg : String) : List String × Bool :=
  let r := expandGroupAux compat (arg.data.drop 1) sep [] []
  (r.1 ++ (if r.2.1.isEmpty then [] else [String.mk r.2.1]), r.2.2)

/-- Mutable state of the `parseArgs` work-queue loop: the queue
(`remainings`), the current logical `index`, the pending `groupCount` of
re-injected expansion items, and `hasShortValueSeparator` (`sep`). -/
structure TokenizerState where
  queue : List String
  index : Int
  groupCount : Nat
  sep : Bool
deriving DecidableEq, Repr

/-- Result of one iteration of the work-queue loop: tokens emitted this
iteration, plus the successor state unless the loop stops. -/
inductive TokenizerStep where
  | done (tokens : List ArgToken)
  | next (tokens : List ArgToken) (st : TokenizerState)
deriving DecidableEq, Repr

/-- After the `--` terminator every remaining queue item becomes a
`positional` token at the next index (`++index` per item). -/
def terminatorPositionals (index : Int) : List String → List ArgToken
  | [] => []
  | a :: rest =>
    ⟨.positional, index + 1, none, none, some a, none⟩ :: terminatorPositionals (index + 1) rest

/-- One iteration of the `parseArgs` loop body. -/
def parseArgsStep (compat : Bool) : TokenizerState → TokenizerStep
  | ⟨[], _, _, _⟩ => .done []
  | ⟨arg :: rest, index0, groupCount0, sep⟩ =>
    let nextArg := rest.head?
    let index := if groupCount0 > 0 then index0 else index0 + 1
    let groupCount := if groupCount0 > 0 then groupCount0 - 1 else 0
    if arg = "--" then
      -- option-terminator branch: everything left becomes a positional
      .done (⟨.optionTerminator, index, none, none, none, none⟩ ::
        terminatorPositionals index rest)
    else if isShortOption arg then
      let tok : ArgToken := ⟨.option, index, some (shortOptionName arg), some arg, none, none⟩
      if groupCount > 0 then
        if groupCount = 1 && hasOptionValue nextArg then
          match rest with
          | [] => .next [tok] ⟨[], index, groupCount, sep⟩
          | v :: rest' =>
            -- consume the next queue item as the grouped option's value and
            -- emit a value-only continuation token at the same index
            .next [tok, ⟨.option, index, none, none, some v, if sep then some true else none⟩]
              ⟨rest', index + 1, groupCount, false⟩
        else
          .next [tok] ⟨rest, index, groupCount, sep⟩
      else
        .next [tok] ⟨rest, index, groupCount, sep⟩
    else if isShortOptionGroup arg then
      let expanded := (expandGroup compat sep arg).1
      .next [] ⟨expanded ++ rest, index, expanded.length, (expandGroup compat sep arg).2⟩
    else if isLongOption arg then
      .next [⟨.option, index, some (sliceFrom2 arg), some arg, none, none⟩]
        ⟨rest, index, groupCount, sep⟩
    else if isLongOptionAndValue arg then
      let longOption := (longOptionEqSplit arg).1
      .next [⟨.option, index, some longOption, some ("--" ++ longOption),
          some (longOptionEqSplit arg).2, some true⟩]
        ⟨rest, index, groupCount, sep⟩
    else
      .next [⟨.positional, index, none, none, some arg, none⟩]
        ⟨rest, index, groupCount, sep⟩

/-- The `parseArgs` work-queue loop, iterating `parseArgsStep`, indexed by
fuel (a proved-sufficient fuel value is used by `parseArgs`). -/
def parseArgsLoop (compat : Bool) : Nat → TokenizerState → List ArgToken
  | 0, _ => []
  | fuel + 1, st =>
    match parseArgsStep compat st with
    | .done tokens => tokens
    | .next tokens st' => tokens ++ parseArgsLoop compat fuel st'

/-- Fuel measure for one queue item: items of length at most 2 can never
re-expand, longer items may expand into strictly cheaper queues. -/
def argCost (s : String) : Nat :=
  if s.data.length ≤ 2 then 1 else 4 ^ s.data.length

/-- Fuel measure for the whole work queue. -/
def queueCost (q : List String) : Nat :=
  (q.map argCost).sum

/-- `parseArgs(args, { allowCompatible })`: run the loop with sufficient
fuel, starting at `index = -1`, `groupCount = 0`, no pending separator. -/
def parseArgs (args : List String) (compat : Bool := false) : List ArgToken :=
  parseArgsLoop compat (queueCost args + 1) ⟨args, -1, 0, false⟩

/-- Render one token back to command-line text: an option token is its
`rawName`, joined by `=` to its `value` when `inlineValue` is set; a
positional token is its `value`; the terminator is `--`. -/
def renderToken (t : ArgToken) : String :=
  match t.kind with
  | .option =>
    if t.inlineValue = some true then t.rawName.getD "" ++ "=" ++ t.value.getD ""
    else t.rawName.getD ""
  | .optionTerminator => "--"
  | .positional => t.value.getD ""

/-- A long `=`-valued option: begins with `--`, longer than two characters,
and carries an `=` at index 3 or later (e.g. `--foo=bar`). -/
def isLongEqValued (e : String) : Bool :=
  match e.data with
  | c0 :: c1 :: _ :: _ => c0 = '-' && c1 = '-' && includesEqFrom3 e
  | _ => false

/-- An argv element the tokenizer classifies as a positional: not the
terminator and not short/group/long-shaped. -/
def isPositionalLike (e : String) : Bool :=
  !(e = "--") && !isShortOption e && !isShortOptionGroup e && !hasLongOptionPrefix e

/-! ## Resolver (`resolver.ts`) -/

/-- Argument value type (`ArgSchema.type`). -/
inductive ArgType where
  | string
  | boolean
  | number
  | enum
  | positional
  | custom
deriving DecidableEq, Repr

/-- JavaScript runtime values flowing through the resolver.  Numbers are
modelled on the decimal-integer fragment the resolver's examples use. -/
inductive JSValue where
  | str (s : String)
  | bool (b : Bool)
  | num (n : Int)
  | undef
  | arr (elems : List JSValue)

/-- Error type tag of `ArgResolveError`. -/
inductive ArgResolveErrorType where
  | type
  | required
  | conflict
deriving DecidableEq, Repr

/-- Errors of the resolver: `ArgResolveError` (message, argument name, tag),
engine-thrown `TypeError`s, and generic `Error`s (the schema reference
carried by `ArgResolveError` is not modelled).  User `parse` callbacks
produce values of this type when they throw. -/
inductive JsError where
  | argResolve (message : String) (name : String) (errType : ArgResolveErrorType)
  | typeError (message : String)
  | genericError (message : String)
deriving DecidableEq, Repr

/-- Argument schema (`ArgSchema` interface).  `required`, `multiple`,
`negatable` and `toKebab` are `Bool` (absent = `false`); `conflicts` is the
`Array.isArray`-normalised list; `parse` returns `Except` in place of a
callback that may throw. -/
structure ArgSchema where
  type : ArgType
  short : Option String := none
  required : Bool := false
  multiple : Bool := false
  negatable : Bool := false
  choices : Option (List String) := none
  default : Option JSValue := none
  toKebab : Bool := false
  conflicts : List String := []
  parse : Option (String → Except JsError JSValue) := none

/-- Ordered mapping from logical name to schema (`Args`;
`Object.entries` order). -/
abbrev Args : Type := List (String × ArgSchema)

/-- Options of `resolveArgs`. -/
structure ResolveArgsOptions where
  shortGrouping : Bool := false
  skipPositional : Int := -1
  toKebab : Bool := false

/-- Resolved result of `resolveArgs`.  `positionals` keeps the raw
`token.value` fields (`none` = `undefined`); `error` is the aggregate error
list when non-empty. -/
structure ResolvedResult where
  values : List (String × JSValue)
  positionals : List (Option String)
  rest : List String
  error : Option (List JsError)
  explicit : List (String × Bool)

/-- Apostrophe, kept out of string literals. -/
def apos : String := String.mk [Char.ofNat 39]

/-- Convert a string to kebab-case (`kebabnize` from `utils.ts`):
every ASCII capital becomes its lowercase, preceded by `-` unless at
offset 0. -/
def kebabnize (s : String) : String :=
  String.mk ((s.data.enum.map (fun p =>
    if p.2.isUpper then (if p.1 > 0 then ['-', p.2.toLower] else [p.2.toLower])
    else [p.2])).flatten)

/-- Characters trimmed by `String.prototype.trim`. -/
def isJsWhitespace (c : Char) : Bool :=
  c = ' ' || c = '\t' || c = '\n' || c = '\r'

/-- `str.trim()`. -/
def jsTrim (s : String) : String :=
  String.mk (((s.data.dropWhile isJsWhitespace).reverse.dropWhile isJsWhitespace).reverse)

/-- Decimal digit run to a number (`none` when empty or non-digits). -/
def digitsToNat? (ds : List Char) : Option Nat :=
  if ds.isEmpty then none
  else if ds.all (·.isDigit) then
    some (ds.foldl (fun acc c => acc * 10 + (c.toNat - '0'.toNat)) 0)
  else none

/-- Modelled from JS `Number(str)` coercion, restricted to the
optional-sign decimal-integer fragment (floats, hex and exponents are
outside the modelled fragment); the empty trimmed string coerces to 0,
anything else non-numeric to `none` (NaN). -/
def jsStringToNumber? (s : String) : Option Int :=
  match (jsTrim s).data with
  | [] => some 0
  | '-' :: ds => (digitsToNat? ds).map (fun n => -(n : Int))
  | '+' :: ds => (digitsToNat? ds).map (fun n => (n : Int))
  | ds => (digitsToNat? ds).map (fun n => (n : Int))

/-- `isNumeric(str)`: `str.trim() !== '' && !isNaN(str)`. -/
def isNumeric (s : String) : Bool :=
  jsTrim s ≠ "" && (jsStringToNumber? s).isSome

/-- `+str` after `isNumeric` has succeeded. -/
def jsToNumber (s : String) : Int :=
  (jsStringToNumber? s).getD 0

/-- `String(v)` for the values that reach it (`schema.default` is
`string | boolean | number` in the TS type, so the `arr` case is
unreachable there). -/
def jsValueToString : JSValue → String
  | .str s => s
  | .bool b => if b then "true" else "false"
  | .num n => toString n
  | .undef => "undefined"
  | .arr _ => ""

/-- JS truthiness of a value. -/
def jsTruthy : JSValue → Bool
  | .str s => s ≠ ""
  | .bool b => b
  | .num n => n ≠ 0
  | .undef => false
  | .arr _ => true

/-- Rendering of `ArgType` in error messages (`${schema.type}`). -/
def argTypeToString : ArgType → String
  | .string => "string"
  | .boolean => "boolean"
  | .number => "number"
  | .enum => "enum"
  | .positional => "positional"
  | .custom => "custom"

/-- `createRequireError`. -/
def createRequireError (option : String) (schema : ArgSchema) : JsError :=
  let message :=
    if schema.type = ArgType.positional then
      "Positional argument " ++ apos ++ option ++ apos ++ " is required"
    else
      "Optional argument " ++ apos ++ "--" ++ option ++ apos ++ " " ++
        (if strTruthy schema.short then
          "or " ++ apos ++ "-" ++ schema.short.getD "" ++ apos ++ " "
        else "") ++ "is required"
  .argResolve message option .required

/-- `createTypeError`. -/
def createTypeError (option : String) (schema : ArgSchema) : JsError :=
  .argResolve
    ("Optional argument " ++ apos ++ "--" ++ option ++ apos ++ " " ++
      (if strTruthy schema.short then
        "or " ++ apos ++ "-" ++ schema.short.getD "" ++ apos ++ " "
      else "") ++
      "should be " ++ apos ++ argTypeToString schema.type ++ apos)
    option .type

/-- Enum `ArgResolveError` (choices are `JSON.stringify`-quoted; escaping
inside a choice is outside the modelled fragment). -/
def createEnumError (option : String) (schema : ArgSchema) : JsError :=
  .argResolve
    ("Optional argument " ++ apos ++ "--" ++ option ++ apos ++ " " ++
      (if strTruthy schema.short then
        "or " ++ apos ++ "-" ++ schema.short.getD "" ++ apos ++ " "
      else "") ++
      "should be chosen from " ++ apos ++ argTypeToString schema.type ++ apos ++ " [" ++
      String.intercalate ", " ((schema.choices.getD []).map (fun c => "\"" ++ c ++ "\"")) ++
      "] values")
    option .type

/-- State of the token-reassembly pass of `resolveArgs`. -/
structure AnalyzeState where
  optionTokens : List ArgToken := []
  positionalTokens : List ArgToken := []
  rest : List String := []
  currentLong : Option ArgToken := none
  currentShort : Option ArgToken := none
  expandable : List ArgToken := []
  terminated : Bool := false

/-- `toShortValue()`: join the buffered grouped-short names (an
`undefined` name joins as the empty string), `undefined` when the buffer is
empty.  The caller clears the buffer. -/
def toShortValue (buf : List ArgToken) : Option String :=
  if buf.isEmpty then none
  else some (String.join (buf.map (fun t => t.name.getD "")))

/-- `applyLongOptionValue(value)`. -/
def applyLongOptionValue (st : AnalyzeState) (value : Option String) : AnalyzeState :=
  match st.currentLong with
  | none => st
  | some t =>
    { st with optionTokens := st.optionTokens ++ [{ t with value := value }],
              currentLong := none }

/-- `applyShortOptionValue(value)`: `value || toShortValue()` — the buffer
is consulted (and cleared) only when `value` is falsy. -/
def applyShortOptionValue (st : AnalyzeState) (value : Option String) : AnalyzeState :=
  match st.currentShort with
  | none => st
  | some t =>
    if strTruthy value then
      { st with optionTokens := st.optionTokens ++ [{ t with value := value }],
                currentShort := none }
    else
      { st with optionTokens := st.optionTokens ++ [{ t with value := toShortValue st.expandable }],
                currentShort := none,
                expandable := [] }

/-- Lookup in an ordered string-keyed mapping. -/
def lookupAssoc {α : Type} (l : List (String × α)) (k : String) : Option α :=
  (l.find? (fun p => p.1 = k)).map (·.2)

/-- JS object assignment `o[k] = v`: update in place, or append preserving
insertion order. -/
def setAssoc {α : Type} (l : List (String × α)) (k : String) (v : α) : List (String × α) :=
  if l.any (fun p => p.1 = k) then l.map (fun p => if p.1 = k then (k, v) else p)
  else l ++ [(k, v)]

/-- `args[k]` (JS object lookup by key). -/
def argsLookup (args : Args) (k : String) : Option ArgSchema :=
  (args.find? (fun p => p.1 = k)).map (·.2)

/-- One iteration of the token-reassembly loop of `resolveArgs`. -/
def analyzeStep (args : Args) (shortGrouping : Bool) (st : AnalyzeState)
    (token : ArgToken) : AnalyzeState :=
  match token.kind with
  | .positional =>
    -- after the terminator, non-empty positional values go to `rest`
    if st.terminated && strTruthy token.value then
      { st with rest := st.rest ++ [token.value.getD ""] }
    else
      match st.currentShort with
      | some cs =>
        match (args.map (·.2)).find? (fun schema =>
            decide (schema.short = cs.name ∧ schema.type = ArgType.boolean)) with
        | some _ =>
          -- pending short option is boolean: keep the positional, finalize valuelessly
          applyShortOptionValue { st with positionalTokens := st.positionalTokens ++ [token] } none
        | none => applyShortOptionValue st token.value
      | none =>
        match st.currentLong with
        | some cl =>
          if (argsLookup args (cl.name.getD "undefined")).map (·.type) = some ArgType.boolean then
            applyLongOptionValue { st with positionalTokens := st.positionalTokens ++ [token] } none
          else applyLongOptionValue st token.value
        | none => { st with positionalTokens := st.positionalTokens ++ [token] }
  | .option =>
    if strTruthy token.rawName then
      if hasLongOptionPrefix (token.rawName.getD "") then
        let st := applyLongOptionValue st none
        let st :=
          if token.inlineValue = some true then
            { st with optionTokens := st.optionTokens ++ [token] }
          else { st with currentLong := some token }
        applyShortOptionValue st none
      else if isShortOption (token.rawName.getD "") then
        match st.currentShort with
        | some cs =>
          let st :=
            if cs.index = token.index then
              if shortGrouping then
                { st with optionTokens := st.optionTokens ++ [{ cs with value := token.value }],
                          currentShort := some token }
              else { st with expandable := st.expandable ++ [token] }
            else
              { st with optionTokens := st.optionTokens ++ [{ cs with value := toShortValue st.expandable }],
                        currentShort := some token,
                        expandable := [] }
          applyLongOptionValue st none
        | none => applyLongOptionValue { st with currentShort := some token } none
      else st
    else
      -- short option value continuation (no `rawName`)
      let st :=
        match st.currentShort with
        | some cs =>
          if cs.index = token.index ∧ token.inlineValue = some true then
            { st with optionTokens := st.optionTokens ++ [{ cs with value := token.value }],
                      currentShort := none }
          else st
        | none => st
      applyLongOptionValue st none
  | .optionTerminator =>
    applyShortOptionValue (applyLongOptionValue { st with terminated := true } none) none

/-- Token-reassembly pass over the whole token list, with the final flush of
any still-pending option. -/
def analyzeTokens (args : Args) (shortGrouping : Bool) (tokens : List ArgToken) : AnalyzeState :=
  applyShortOptionValue
    (applyLongOptionValue (tokens.foldl (analyzeStep args shortGrouping) {}) none) none

/-- `checkTokenName(option, schema, token)`. -/
def checkTokenName (option : String) (schema : ArgSchema) (token : ArgToken) : Bool :=
  token.name = some (
    if schema.type = ArgType.boolean then
      if schema.negatable &&
          (match token.name with | some n => n.startsWith "no-" | none => false) then
        "no-" ++ option
      else option
    else option)

/-- Match condition of the per-field scan over `optionTokens`: long-name
match, or short-alias match. -/
def matchesToken (arg : String) (schema : ArgSchema) (token : ArgToken) : Bool :=
  (checkTokenName arg schema token &&
    (match token.rawName with | some rn => hasLongOptionPrefix rn | none => false)) ||
  (decide (schema.short = token.name) &&
    (match token.rawName with | some rn => isShortOption rn | none => false))

/-- Per-token predicate of the `required` pre-check
(`optionTokens.find(...)`). -/
def requiredFoundPred (arg : String) (schema : ArgSchema) (token : ArgToken) : Bool :=
  (strTruthy schema.short && decide (token.name = schema.short)) ||
  (strTruthy token.rawName && hasLongOptionPrefix (token.rawName.getD "") &&
    decide (token.name = some arg))

/-- Lookup used by the `required` pre-check (`optionTokens.find(...)`). -/
def requiredTokenFound (arg : String) (schema : ArgSchema)
    (optionTokens : List ArgToken) : Bool :=
  optionTokens.any (requiredFoundPred arg schema)

/-- `validateRequire(token, option, schema)`. -/
def validateRequire (token : ArgToken) (option : String) (schema : ArgSchema) :
    Option JsError :=
  if schema.required && decide (schema.type ≠ ArgType.boolean) && !strTruthy token.value then
    some (createRequireError option schema)
  else none

/-- Whether the per-field scan reaches its explicit-marking point for some
token: a match that also passes `validateRequire`. -/
def fieldTokenBound (arg : String) (schema : ArgSchema)
    (optionTokens : List ArgToken) : Bool :=
  optionTokens.any (fun token =>
    matchesToken arg schema token && (validateRequire token arg schema).isNone)

/-- Display name of a field (`toKebab` handling). -/
def fieldArgName (toKebab : Bool) (rawArg : String) (schema : ArgSchema) : String :=
  if toKebab || schema.toKebab then kebabnize rawArg else rawArg

/-- `parse(token, option, schema)`: the outer `Except` is an exception
escaping `resolveArgs`, the inner layer is the `[value, error]` pair. -/
def parseToken (token : ArgToken) (option : String) (schema : ArgSchema) :
    Except JsError (Except JsError JSValue) :=
  match schema.parse with
  | some f =>
    -- a user-defined parse pre-empts built-in coercion for every type
    if schema.type = ArgType.boolean then
      if schema.negatable then
        match token.name with
        | none => .error (.typeError "Cannot read properties of undefined (reading startsWith)")
        | some n =>
          match f (jsValueToString (.bool (!(n.startsWith "no-")))) with
          | .ok v => .ok (.ok v)
          | .error e => .ok (.error e)
      else
        match f (jsValueToString (.bool true)) with
        | .ok v => .ok (.ok v)
        | .error e => .ok (.error e)
    else
      match f (match token.value with
        | some v => v
        | none => jsValueToString (schema.default.getD (.str ""))) with
      | .ok v => .ok (.ok v)
      | .error e => .ok (.error e)
  | none =>
    match schema.type with
    | .string =>
      match token.value with
      | some v => .ok (.ok (if v ≠ "" then .str v else schema.default.getD .undef))
      | none => .ok (.error (createTypeError option schema))
    | .boolean =>
      if schema.negatable then
        match token.name with
        | none => .error (.typeError "Cannot read properties of undefined (reading startsWith)")
        | some n => .ok (.ok (.bool (!(n.startsWith "no-"))))
      else .ok (.ok (.bool true))
    | .number =>
      match token.value with
      | none =>
        -- `isNumeric(token.value!)` with an absent value: `undefined.trim()` throws
        .error (.typeError "Cannot read properties of undefined (reading trim)")
      | some v =>
        if !isNumeric v then .ok (.error (createTypeError option schema))
        else if v ≠ "" then .ok (.ok (.num (jsToNumber v)))
        else .ok (.ok (.num 0))  -- `+(schema.default || '')`: unreachable, `isNumeric` forces a non-empty value
    | .enum =>
      match schema.choices with
      | some cs =>
        if !(match token.value with | some v => cs.contains v | none => false) then
          .ok (.error (createEnumError option schema))
        else
          .ok (.ok (match token.value with
            | some v => if v ≠ "" then .str v else schema.default.getD .undef
            | none => schema.default.getD .undef))
      | none =>
        .ok (.ok (match token.value with
          | some v => if v ≠ "" then .str v else schema.default.getD .undef
          | none => schema.default.getD .undef))
    | .custom =>
      -- reached only when `schema.parse` is missing: the source throws
      .error (.typeError ("argument " ++ apos ++ option ++ apos ++ " should have a " ++
        apos ++ "parse" ++ apos ++ " function"))
    | .positional =>
      -- the `default` switch case throws; unreachable from `resolveArgs`
      .error (.genericError ("Unsupported argument type " ++ apos ++ "positional" ++ apos ++
        " for option " ++ apos ++ option ++ apos))

/-- Mutable state threaded through the per-field resolution pass. -/
structure ResolveState where
  values : List (String × JSValue) := []
  errors : List JsError := []
  explicit : List (String × Bool) := []
  actualInputNames : List (String × String) := []
  positionalsCount : Nat := 0

/-- `values[rawArg] == null` (loose equality: `undefined` or `null`). -/
def isNullish : Option JSValue → Bool
  | none => true
  | some .undef => true
  | some _ => false

/-- Scan of `optionTokens` for one non-positional field. -/
def resolveOptionTokens (rawArg arg : String) (schema : ArgSchema) :
    List ArgToken → ResolveState → Except JsError ResolveState
  | [], st => .ok st
  | token :: rest, st =>
    if matchesToken arg schema token then
      match validateRequire token arg schema with
      | some e =>
        resolveOptionTokens rawArg arg schema rest { st with errors := st.errors ++ [e] }
      | none =>
        -- record explicit provision and the literal form the user typed
        let actualName :=
          if isShortOption (token.rawName.getD "") then "-" ++ token.name.getD "undefined"
          else "--" ++ arg
        let st := { st with
          explicit := setAssoc st.explicit rawArg true,
          actualInputNames := setAssoc st.actualInputNames rawArg actualName }
        match parseToken token arg schema with
        | .error thrown => .error thrown
        | .ok (.error e) =>
          resolveOptionTokens rawArg arg schema rest { st with errors := st.errors ++ [e] }
        | .ok (.ok v) =>
          if schema.multiple then
            let cur := match lookupAssoc st.values rawArg with
              | some (.arr l) => l
              | _ => []
            resolveOptionTokens rawArg arg schema rest
              { st with values := setAssoc st.values rawArg (.arr (cur ++ [v])) }
          else
            resolveOptionTokens rawArg arg schema rest
              { st with values := setAssoc st.values rawArg v }
    else resolveOptionTokens rawArg arg schema rest st

/-- Resolution of one `positional`-typed field (cursor advance, skip window,
`multiple` slurp, `parse` application, the unconditional missing-positional
require error). -/
def resolvePositionalField (rawArg arg : String) (schema : ArgSchema)
    (positionalTokens : List ArgToken) (skipIdx : Int) (positionalItemCount : Nat)
    (st : ResolveState) : ResolveState :=
  let g : Int := min skipIdx (positionalItemCount : Int)
  let pc :=
    if skipIdx > -1 then
      if (st.positionalsCount : Int) ≤ g then (g + 1).toNat else st.positionalsCount
    else st.positionalsCount
  if schema.multiple then
    let remaining := positionalTokens.drop pc
    if remaining.length > 0 then
      match schema.parse with
      | some f =>
        let folded := remaining.foldl
          (fun (acc : List JSValue × List JsError) p =>
            match f (p.value.getD "undefined") with
            | .ok v => (acc.1 ++ [v], acc.2)
            | .error e => (acc.1, acc.2 ++ [e])) ([], [])
        { st with values := setAssoc st.values rawArg (.arr folded.1),
                  errors := st.errors ++ folded.2,
                  explicit := setAssoc st.explicit rawArg true,
                  positionalsCount := pc + remaining.length }
      | none =>
        let vals := remaining.map (fun p =>
          match p.value with | some s => JSValue.str s | none => JSValue.undef)
        { st with values := setAssoc st.values rawArg (.arr vals),
                  explicit := setAssoc st.explicit rawArg true,
                  positionalsCount := pc + remaining.length }
    else if schema.required then
      { st with errors := st.errors ++ [createRequireError arg schema], positionalsCount := pc }
    else { st with positionalsCount := pc }
  else
    match positionalTokens.get? pc with
    | some positional =>
      let st' :=
        match schema.parse with
        | some f =>
          match f (positional.value.getD "undefined") with
          | .ok v => { st with values := setAssoc st.values rawArg v }
          | .error e => { st with errors := st.errors ++ [e] }
        | none =>
          let v := match positional.value with | some s => JSValue.str s | none => JSValue.undef
          { st with values := setAssoc st.values rawArg v }
      { st' with explicit := setAssoc st'.explicit rawArg true, positionalsCount := pc + 1 }
    | none =>
      { st with errors := st.errors ++ [createRequireError arg schema],
                positionalsCount := pc + 1 }

/-- Resolution of one field (schema entry), in declaration order. -/
def resolveField (optionTokens positionalTokens : List ArgToken)
    (skipIdx : Int) (positionalItemCount : Nat) (toKebab : Bool)
    (st : ResolveState) (rawArg : String) (schema : ArgSchema) :
    Except JsError ResolveState :=
  let arg := fieldArgName toKebab rawArg schema
  let st := { st with explicit := setAssoc st.explicit rawArg false }
  if schema.type = ArgType.positional then
    .ok (resolvePositionalField rawArg arg schema positionalTokens skipIdx
      positionalItemCount st)
  else if schema.required && !requiredTokenFound arg schema optionTokens then
    .ok { st with errors := st.errors ++ [createRequireError arg schema] }
  else
    match resolveOptionTokens rawArg arg schema optionTokens st with
    | .error e => .error e
    | .ok st' =>
      -- install the schema default when nothing (non-nullish) was bound
      if isNullish (lookupAssoc st'.values rawArg) && schema.default.isSome then
        .ok { st' with values := setAssoc st'.values rawArg (schema.default.getD .undef) }
      else .ok st'

/-- Per-field resolution over the schema entries in declaration order. -/
def resolveFieldsLoop (optionTokens positionalTokens : List ArgToken)
    (skipIdx : Int) (positionalItemCount : Nat) (toKebab : Bool) :
    List (String × ArgSchema) → ResolveState → Except JsError ResolveState
  | [], st => .ok st
  | (rawArg, schema) :: restFields, st =>
    match resolveField optionTokens positionalTokens skipIdx positionalItemCount
        toKebab st rawArg schema with
    | .error e => .error e
    | .ok st' =>
      resolveFieldsLoop optionTokens positionalTokens skipIdx positionalItemCount
        toKebab restFields st'

/-- Conflict pass: first field (in declaration order) that is explicit and
whose `conflicts` list (in array order) names another explicit field yields
one Conflict error; the pass stops there. -/
def checkConflictsLoop (args0 : Args) (explicit : List (String × Bool)) (toKebab : Bool)
    (names : List (String × String)) : List (String × ArgSchema) → List JsError
  | [] => []
  | (rawArg, schema) :: rest =>
    if !(lookupAssoc explicit rawArg).getD false then
      checkConflictsLoop args0 explicit toKebab names rest
    else if schema.conflicts.isEmpty then
      checkConflictsLoop args0 explicit toKebab names rest
    else
      match schema.conflicts.find? (fun c => (lookupAssoc explicit c).getD false) with
      | some conflictingArg =>
        let arg := fieldArgName toKebab rawArg schema
        let conflictingArgKebab :=
          if toKebab || (((argsLookup args0 conflictingArg).map (·.toKebab)).getD false) then
            kebabnize conflictingArg
          else conflictingArg
        let optionActualName :=
          match lookupAssoc names rawArg with
          | some s => if s ≠ "" then s else "--" ++ arg
          | none => "--" ++ arg
        let conflictingActualName :=
          match lookupAssoc names conflictingArg with
          | some s => if s ≠ "" then s else "--" ++ conflictingArgKebab
          | none => "--" ++ conflictingArgKebab
        [.argResolve ("Optional argument " ++ apos ++ optionActualName ++ apos ++
            " conflicts with " ++ apos ++ conflictingActualName ++ apos) rawArg .conflict]
      | none => checkConflictsLoop args0 explicit toKebab names rest

/-- `resolveArgs(args, tokens, opts)`.  A `.error` result is an exception
escaping the TS function; `.ok` carries the returned record. -/
def resolveArgs (args : Args) (tokens : List ArgToken)
    (opts : ResolveArgsOptions := {}) : Except JsError ResolvedResult :=
  let skipIdx := max opts.skipPositional (-1)
  let st0 := analyzeTokens args opts.shortGrouping tokens
  let positionalItemCount := (tokens.filter (fun t => decide (t.kind = .positional))).length
  match resolveFieldsLoop st0.optionTokens st0.positionalTokens skipIdx
      positionalItemCount opts.toKebab args {} with
  | .error e => .error e
  | .ok st =>
    let errors := st.errors ++
      checkConflictsLoop args st.explicit opts.toKebab st.actualInputNames args
    .ok { values := st.values,
          positionals := st0.positionalTokens.map (·.value),
          rest := st0.rest,
          error := if errors.isEmpty then none else some errors,
          explicit := st.explicit }

/-- Schema of the end-to-end example: a required string `host` with short
`o`, and a number `port` with short `p` and default 8080. -/
def argsHostPort : Args :=
  [("host", { type := .string, short := some "o", required := true }),
   ("port", { type := .number, short := some "p", default := some (.num 8080) })]

/-- Schema of the conflict example: boolean `a` conflicting with `b` and
`c`, booleans `b` and `c`. -/
def argsConflict : Args :=
  [("a", { type := .boolean, conflicts := ["b", "c"] }),
   ("b", { type := .boolean }),
   ("c", { type := .boolean })]

/-- Schema of the default-vs-explicit example: a number `port` with
default 8080. -/
def argsPort : Args := [("port", { type := .number, default := some (.num 8080) })]

/-- Schema with a single custom-typed field without a `parse` function. -/
def argsCustomNoParse : Args := [("x", { type := .custom })]

/-- Schema with a single number-typed field and no default. -/
def argsNumber : Args := [("port", { type := .number })]

/-- Schema with one string field with short alias `p`. -/
def argsShortP : Args := [("p", { type := .string, short := some "p" })]

/-- Lower bound on the index of every token the loop can still emit from a
given state (`index` is bumped before emission unless a group is pending). -/
def indexLB (st : TokenizerState) : Int :=
  if st.groupCount > 0 then st.index else st.index + 1

/-- Tokens have non-decreasing `index` fields. -/
def IndexSorted (l : List ArgToken) : Prop :=
  List.Pairwise (fun a b : ArgToken => a.index ≤ b.index) l

/-! ### Fuel adequacy for the tokenizer loop -/

lemma argCost_pos (s : String) : 0 < argCost s := by
  unfold argCost
  split
  · exact Nat.one_pos
  · exact Nat.pos_pow_of_pos _ (by norm_num)

lemma queueCost_cons (a : String) (q : List String) :
    queueCost (a :: q) = argCost a + queueCost q := by
  simp [queueCost]

lemma queueCost_append (q₁ q₂ : List String) :
    queueCost (q₁ ++ q₂) = queueCost q₁ + queueCost q₂ := by
  simp [queueCost]

lemma expandGroupAux_spec (compat : Bool) (cs : List Char) :
    ∀ (sep : Bool) (exp : List String) (sv : List Char),
      (expandGroupAux compat cs sep exp sv).1.length ≤ exp.length + cs.length ∧
      (∀ s ∈ (expandGroupAux compat cs sep exp sv).1, s ∈ exp ∨ s.data.length = 2) ∧
      (expandGroupAux compat cs sep exp sv).2.1.length ≤ sv.length + cs.length := by
  induction cs with
  | nil =>
    intro sep exp sv
    refine ⟨by simp [expandGroupAux], fun s hs => Or.inl (by simpa [expandGroupAux] using hs),
      by simp [expandGroupAux]⟩
  | cons c cs ih =>
    intro sep exp sv
    unfold expandGroupAux
    split
    · obtain ⟨h₁, h₂, h₃⟩ := ih sep exp (sv ++ [c])
      refine ⟨?_, h₂, ?_⟩
      · simp only [List.length_cons]
        omega
      · simp only [List.length_append, List.length_cons, List.length_nil] at h₃ ⊢
        omega
    · split
      · obtain ⟨h₁, h₂, h₃⟩ := ih true exp sv
        refine ⟨?_, h₂, ?_⟩
        · simp only [List.length_cons]
          omega
        · simp only [List.length_cons]
          omega
      · obtain ⟨h₁, h₂, h₃⟩ := ih sep (exp ++ [String.mk ['-', c]]) sv
        refine ⟨?_, ?_, ?_⟩
        · simp only [List.length_append, List.length_cons, List.length_nil] at h₁ ⊢
          omega
        · intro s hs
          rcases h₂ s hs with h | h
          · rcases List.mem_append.mp h with h | h
            · exact Or.inl h
            · simp only [List.mem_singleton] at h
              subst h
              exact Or.inr rfl
          · exact Or.inr h
        · simp only [List.length_cons]
          omega

lemma queueCost_le_of_small (l : List String) (h : ∀ s ∈ l, argCost s = 1) :
    queueCost l ≤ l.length := by
  induction l with
  | nil => simp [queueCost]
  | cons a l ih =>
    rw [queueCost_cons, h a (List.mem_cons_self a l)]
    have := ih (fun s hs => h s (List.mem_cons_of_mem a hs))
    simp only [List.length_cons]
    omega

lemma expandGroup_cost (compat sep : Bool) (arg : String)
    (h : isShortOptionGroup arg = true) :
    queueCost (expandGroup compat sep arg).1 < argCost arg := by
  obtain ⟨c0, c1, c2, t, hdata⟩ :
      ∃ c0 c1 c2 t, arg.data = c0 :: c1 :: c2 :: t := by
    unfold isShortOptionGroup at h
    rcases hd : arg.data with _ | ⟨c0, _ | ⟨c1, _ | ⟨c2, t⟩⟩⟩ <;> rw [hd] at h
    · simp at h
    · simp at h
    · simp at h
    · exact ⟨c0, c1, c2, t, rfl⟩
  set cs := arg.data.drop 1 with hcs
  have hlen : arg.data.length = cs.length + 1 := by
    rw [hcs, List.length_drop, hdata]
    simp
  have hn : 2 ≤ cs.length := by
    rw [hcs, hdata]
    simp
  obtain ⟨hexp, hmem, hsv⟩ := expandGroupAux_spec compat cs sep [] []
  set r := expandGroupAux compat cs sep [] [] with hr
  have hcost_exp : queueCost r.1 ≤ cs.length := by
    refine Nat.le_trans (queueCost_le_of_small _ fun s hs => ?_) (by simpa using hexp)
    rcases hmem s hs with hmem' | hmem'
    · exact absurd hmem' (List.not_mem_nil s)
    · unfold argCost
      rw [hmem']
      simp
  have hcost_tail :
      queueCost (if r.2.1.isEmpty then [] else [String.mk r.2.1]) ≤ 4 ^ cs.length := by
    split
    · exact Nat.zero_le _
    · have hdata_mk : (String.mk r.2.1).data = r.2.1 := rfl
      simp only [queueCost, List.map_cons, List.map_nil, List.sum_cons, List.sum_nil,
        Nat.add_zero]
      unfold argCost
      rw [hdata_mk]
      split
      · exact Nat.one_le_pow _ _ (by norm_num)
      · exact Nat.pow_le_pow_right (by norm_num) (by simpa using hsv)
  have harg : argCost arg = 4 ^ (cs.length + 1) := by
    unfold argCost
    rw [hlen]
    split
    · omega
    · rfl
  have hlt : cs.length < 4 ^ cs.length := Nat.lt_pow_self (by norm_num) cs.length
  calc queueCost (expandGroup compat sep arg).1
      = queueCost r.1 + queueCost (if r.2.1.isEmpty then [] else [String.mk r.2.1]) := by
        unfold expandGroup
        rw [← hcs, ← hr, queueCost_append]
    _ ≤ cs.length + 4 ^ cs.length := Nat.add_le_add hcost_exp hcost_tail
    _ < 4 ^ (cs.length + 1) := by
        have hpow : 4 ^ (cs.length + 1) = 4 ^ cs.length * 4 := pow_succ 4 cs.length
        omega
    _ = argCost arg := harg.symm

lemma parseArgsStep_cost (compat : Bool) (st : TokenizerState) (tokens : List ArgToken)
    (st' : TokenizerState) (h : parseArgsStep compat st = .next tokens st') :
    queueCost st'.queue < queueCost st.queue := by
  obtain ⟨q, index0, groupCount0, sep⟩ := st
  rcases q with _ | ⟨arg, rest⟩
  · simp [parseArgsStep] at h
  · have hpos := argCost_pos arg
    simp only [parseArgsStep] at h
    by_cases h1 : arg = "--"
    · simp [h1] at h
    rw [if_neg h1] at h
    by_cases h2 : isShortOption arg = true
    · rw [if_pos h2] at h
      by_cases hg : groupCount0 > 0
      · simp only [if_pos hg] at h
        by_cases hg1 : groupCount0 - 1 > 0
        · rw [if_pos hg1] at h
          by_cases hc : (decide (groupCount0 - 1 = 1) && hasOptionValue rest.head?) = true
          · rw [if_pos hc] at h
            rcases rest with _ | ⟨v, rest'⟩
            · cases h
              simp only [queueCost, List.map_cons, List.map_nil, List.sum_cons, List.sum_nil]
              omega
            · cases h
              have hpos2 := argCost_pos v
              simp only [queueCost_cons]
              omega
          · rw [if_neg hc] at h
            cases h
            simp only [queueCost_cons]
            omega
        · rw [if_neg hg1] at h
          cases h
          simp only [queueCost_cons]
          omega
      · simp only [if_neg hg] at h
        rw [if_neg (by omega : ¬(0 : Nat) > 0)] at h
        cases h
        simp only [queueCost_cons]
        omega
    · rw [if_neg h2] at h
      by_cases h3 : isShortOptionGroup arg = true
      · rw [if_pos h3] at h
        cases h
        simp only [queueCost_cons, queueCost_append]
        have := expandGroup_cost compat sep arg h3
        omega
      · rw [if_neg h3] at h
        by_cases h4 : isLongOption arg = true
        · rw [if_pos h4] at h
          cases h
          simp only [queueCost_cons]
          omega
        · rw [if_neg h4] at h
          by_cases h5 : isLongOptionAndValue arg = true
          · rw [if_pos h5] at h
            cases h
            simp only [queueCost_cons]
            omega
          · rw [if_neg h5] at h
            cases h
            simp only [queueCost_cons]
            omega

lemma parseArgsLoop_nil (compat : Bool) (fuel : Nat) (i : Int) (g : Nat) (s : Bool) :
    parseArgsLoop compat fuel ⟨[], i, g, s⟩ = [] := by
  cases fuel <;> simp [parseArgsLoop, parseArgsStep]

lemma parseArgsLoop_succ_done {compat : Bool} {st : TokenizerState} {ts : List ArgToken}
    (n : Nat) (h : parseArgsStep compat st = .done ts) :
    parseArgsLoop compat (n + 1) st = ts := by
  simp [parseArgsLoop, h]

lemma parseArgsLoop_succ_next {compat : Bool} {st st' : TokenizerState} {ts : List ArgToken}
    (n : Nat) (h : parseArgsStep compat st = .next ts st') :
    parseArgsLoop compat (n + 1) st = ts ++ parseArgsLoop compat n st' := by
  simp [parseArgsLoop, h]

lemma parseArgsLoop_fuel_irrel (compat : Bool) :
    ∀ (f₁ : Nat), ∀ (f₂ : Nat) (st : TokenizerState),
      queueCost st.queue < f₁ → queueCost st.queue < f₂ →
      parseArgsLoop compat f₁ st = parseArgsLoop compat f₂ st := by
  intro f₁
  induction f₁ using Nat.strong_induction_on with
  | _ f₁ ih =>
    intro f₂ st h₁ h₂
    match f₁, f₂ with
    | 0, _ => omega
    | _ + 1, 0 => omega
    | n + 1, m + 1 =>
      simp only [parseArgsLoop]
      rcases hstep : parseArgsStep compat st with ts | ⟨ts, st'⟩
      · rfl
      · have hc := parseArgsStep_cost compat st ts st' hstep
        have hrec := ih n (Nat.lt_succ_self n) m st' (by omega) (by omega)
        show ts ++ parseArgsLoop compat n st' = ts ++ parseArgsLoop compat m st'
        rw [hrec]

/-! ### Index monotonicity of the tokenizer -/

lemma terminatorPositionals_spec (l : List String) :
    ∀ index : Int,
      IndexSorted (terminatorPositionals index l) ∧
      ∀ t ∈ terminatorPositionals index l, index + 1 ≤ t.index ∧ t.kind = .positional := by
  induction l with
  | nil => intro index; simp [terminatorPositionals, IndexSorted]
  | cons a l ih =>
    intro index
    obtain ⟨ihs, ihm⟩ := ih (index + 1)
    constructor
    · refine List.pairwise_cons.mpr ⟨?_, ihs⟩
      intro t ht
      have := (ihm t ht).1
      simp only
      omega
    · intro t ht
      rcases List.mem_cons.mp ht with h | h
      · subst h
        exact ⟨le_refl _, rfl⟩
      · have := ihm t h
        exact ⟨by omega, this.2⟩

lemma parseArgsLoop_mono (compat : Bool) :
    ∀ (fuel : Nat) (st : TokenizerState),
      IndexSorted (parseArgsLoop compat fuel st) ∧
      ∀ t ∈ parseArgsLoop compat fuel st, indexLB st ≤ t.index := by
  intro fuel
  induction fuel with
  | zero => intro st; simp [parseArgsLoop, IndexSorted]
  | succ n ih =>
    intro st
    obtain ⟨q, index0, groupCount0, sep⟩ := st
    rcases q with _ | ⟨arg, rest⟩
    · simp [parseArgsLoop, parseArgsStep, IndexSorted]
    have hLB : indexLB ⟨arg :: rest, index0, groupCount0, sep⟩ =
        (if groupCount0 > 0 then index0 else index0 + 1) := rfl
    by_cases h1 : arg = "--"
    · have hstep : parseArgsStep compat ⟨arg :: rest, index0, groupCount0, sep⟩ =
          .done (⟨.optionTerminator, if groupCount0 > 0 then index0 else index0 + 1,
              none, none, none, none⟩ ::
            terminatorPositionals (if groupCount0 > 0 then index0 else index0 + 1) rest) := by
        simp [parseArgsStep, h1]
      rw [parseArgsLoop_succ_done n hstep]
      obtain ⟨hs, hm⟩ := terminatorPositionals_spec rest
          (if groupCount0 > 0 then index0 else index0 + 1)
      constructor
      · refine List.pairwise_cons.mpr ⟨?_, hs⟩
        intro t ht
        have := (hm t ht).1
        simp only
        omega
      · intro t ht
        rw [hLB]
        rcases List.mem_cons.mp ht with h | h
        · subst h; exact le_refl _
        · have := (hm t h).1
          omega
    · by_cases h2 : isShortOption arg = true
      · -- short option: emits one or two tokens at the current index
        by_cases hg : groupCount0 > 0
        · by_cases hg1 : groupCount0 - 1 > 0
          · by_cases hc : (decide (groupCount0 - 1 = 1) && hasOptionValue rest.head?) = true
            · rcases rest with _ | ⟨v, rest'⟩
              · have hstep : parseArgsStep compat ⟨[arg], index0, groupCount0, sep⟩ =
                    .next [⟨.option, index0, some (shortOptionName arg), some arg, none, none⟩]
                      ⟨[], index0, groupCount0 - 1, sep⟩ := by
                  simp [parseArgsStep, h1, h2, hg, hg1, hc]
                rw [parseArgsLoop_succ_next n hstep, parseArgsLoop_nil]
                refine ⟨List.pairwise_cons.mpr ⟨by simp, List.Pairwise.nil⟩, ?_⟩
                intro t ht
                rw [hLB, if_pos hg]
                simp only [List.append_nil, List.mem_singleton] at ht
                subst ht
                exact le_refl _
              · have hstep : parseArgsStep compat ⟨arg :: v :: rest', index0, groupCount0, sep⟩ =
                    .next [⟨.option, index0, some (shortOptionName arg), some arg, none, none⟩,
                        ⟨.option, index0, none, none, some v, if sep then some true else none⟩]
                      ⟨rest', index0 + 1, groupCount0 - 1, false⟩ := by
                  simp only [parseArgsStep, if_pos hg]
                  rw [if_neg h1, if_pos h2, if_pos hg1, if_pos hc]
                rw [parseArgsLoop_succ_next n hstep]
                obtain ⟨ihs, ihm⟩ := ih ⟨rest', index0 + 1, groupCount0 - 1, false⟩
                have hLB' : (index0 : Int) + 1 ≤ indexLB ⟨rest', index0 + 1, groupCount0 - 1, false⟩ := by
                  unfold indexLB
                  dsimp only
                  split <;> omega
                constructor
                · refine List.pairwise_cons.mpr ⟨?_, List.pairwise_cons.mpr ⟨?_, ihs⟩⟩
                  · intro t ht
                    rcases List.mem_cons.mp ht with h | h
                    · subst h; exact le_refl _
                    · have := ihm t h
                      simp only
                      omega
                  · intro t ht
                    have := ihm t ht
                    simp only
                    omega
                · intro t ht
                  rw [hLB, if_pos hg]
                  rcases List.mem_cons.mp ht with h | h
                  · subst h; exact le_refl _
                  · rcases List.mem_cons.mp h with h' | h'
                    · subst h'; exact le_refl _
                    · have := ihm t h'
                      omega
            · have hstep : parseArgsStep compat ⟨arg :: rest, index0, groupCount0, sep⟩ =
                  .next [⟨.option, index0, some (shortOptionName arg), some arg, none, none⟩]
                    ⟨rest, index0, groupCount0 - 1, sep⟩ := by
                simp only [parseArgsStep, if_pos hg]
                rw [if_neg h1, if_pos h2, if_pos hg1, if_neg hc]
              rw [parseArgsLoop_succ_next n hstep]
              obtain ⟨ihs, ihm⟩ := ih ⟨rest, index0, groupCount0 - 1, sep⟩
              have hLB' : (index0 : Int) ≤ indexLB ⟨rest, index0, groupCount0 - 1, sep⟩ := by
                unfold indexLB
                dsimp only
                split <;> omega
              constructor
              · refine List.pairwise_cons.mpr ⟨?_, ihs⟩
                intro t ht
                have := ihm t ht
                simp only
                omega
              · intro t ht
                rw [hLB, if_pos hg]
                rcases List.mem_cons.mp ht with h | h
                · subst h; exact le_refl _
                · have := ihm t h
                  omega
          · have hstep : parseArgsStep compat ⟨arg :: rest, index0, groupCount0, sep⟩ =
                .next [⟨.option, index0, some (shortOptionName arg), some arg, none, none⟩]
                  ⟨rest, index0, groupCount0 - 1, sep⟩ := by
              simp only [parseArgsStep, if_pos hg]
              rw [if_neg h1, if_pos h2, if_neg hg1]
            rw [parseArgsLoop_succ_next n hstep]
            obtain ⟨ihs, ihm⟩ := ih ⟨rest, index0, groupCount0 - 1, sep⟩
            have hLB' : (index0 : Int) ≤ indexLB ⟨rest, index0, groupCount0 - 1, sep⟩ := by
              unfold indexLB
              dsimp only
              split <;> omega
            constructor
            · refine List.pairwise_cons.mpr ⟨?_, ihs⟩
              intro t ht
              have := ihm t ht
              simp only
              omega
            · intro t ht
              rw [hLB, if_pos hg]
              rcases List.mem_cons.mp ht with h | h
              · subst h; exact le_refl _
              · have := ihm t h
                omega
        · have hstep : parseArgsStep compat ⟨arg :: rest, index0, groupCount0, sep⟩ =
              .next [⟨.option, index0 + 1, some (shortOptionName arg), some arg, none, none⟩]
                ⟨rest, index0 + 1, 0, sep⟩ := by
            simp only [parseArgsStep, if_neg hg]
            rw [if_neg h1, if_pos h2, if_neg (by omega : ¬(0 : Nat) > 0)]
          rw [parseArgsLoop_succ_next n hstep]
          obtain ⟨ihs, ihm⟩ := ih ⟨rest, index0 + 1, 0, sep⟩
          have hLB' : (index0 : Int) + 1 ≤ indexLB ⟨rest, index0 + 1, 0, sep⟩ := by
            unfold indexLB
            dsimp only
            split <;> omega
          constructor
          · refine List.pairwise_cons.mpr ⟨?_, ihs⟩
            intro t ht
            have := ihm t ht
            simp only
            omega
          · intro t ht
            rw [hLB, if_neg hg]
            rcases List.mem_cons.mp ht with h | h
            · subst h; exact le_refl _
            · have := ihm t h
              omega
      · -- non-short branches: group (no emission), long, long=value, positional
        by_cases h3 : isShortOptionGroup arg = true
        · have hstep : parseArgsStep compat ⟨arg :: rest, index0, groupCount0, sep⟩ =
              .next []
                ⟨(expandGroup compat sep arg).1 ++ rest,
                  if groupCount0 > 0 then index0 else index0 + 1,
                  (expandGroup compat sep arg).1.length, (expandGroup compat sep arg).2⟩ := by
            simp only [parseArgsStep]
            rw [if_neg h1, if_neg h2, if_pos h3]
          rw [parseArgsLoop_succ_next n hstep]
          obtain ⟨ihs, ihm⟩ := ih ⟨(expandGroup compat sep arg).1 ++ rest,
            if groupCount0 > 0 then index0 else index0 + 1,
            (expandGroup compat sep arg).1.length, (expandGroup compat sep arg).2⟩
          refine ⟨by simpa using ihs, ?_⟩
          intro t ht
          simp only [List.nil_append] at ht
          have hthis := ihm t ht
          rw [hLB]
          unfold indexLB at hthis
          dsimp only at hthis
          by_cases hgg : groupCount0 > 0
          · rw [if_pos hgg]
            rw [if_pos hgg] at hthis
            split at hthis <;> omega
          · rw [if_neg hgg]
            rw [if_neg hgg] at hthis
            split at hthis <;> omega
        · by_cases h4 : isLongOption arg = true
          · have hstep : parseArgsStep compat ⟨arg :: rest, index0, groupCount0, sep⟩ =
                .next [⟨.option, if groupCount0 > 0 then index0 else index0 + 1,
                    some (sliceFrom2 arg), some arg, none, none⟩]
                  ⟨rest, if groupCount0 > 0 then index0 else index0 + 1,
                    if groupCount0 > 0 then groupCount0 - 1 else 0, sep⟩ := by
              simp only [parseArgsStep]
              rw [if_neg h1, if_neg h2, if_neg h3, if_pos h4]
            rw [parseArgsLoop_succ_next n hstep]
            obtain ⟨ihs, ihm⟩ := ih ⟨rest, if groupCount0 > 0 then index0 else index0 + 1,
              if groupCount0 > 0 then groupCount0 - 1 else 0, sep⟩
            have hLB' : (if groupCount0 > 0 then index0 else index0 + 1) ≤
                indexLB ⟨rest, if groupCount0 > 0 then index0 else index0 + 1,
                  if groupCount0 > 0 then groupCount0 - 1 else 0, sep⟩ := by
              unfold indexLB
              dsimp only
              split <;> omega
            constructor
            · refine List.pairwise_cons.mpr ⟨?_, ihs⟩
              intro t ht
              have := ihm t ht
              simp only
              omega
            · intro t ht
              rw [hLB]
              rcases List.mem_cons.mp ht with h | h
              · subst h; exact le_refl _
              · have := ihm t h
                omega
          · by_cases h5 : isLongOptionAndValue arg = true
            · have hstep : parseArgsStep compat ⟨arg :: rest, index0, groupCount0, sep⟩ =
                  .next [⟨.option, if groupCount0 > 0 then index0 else index0 + 1,
                      some (longOptionEqSplit arg).1, some ("--" ++ (longOptionEqSplit arg).1),
                      some (longOptionEqSplit arg).2, some true⟩]
                    ⟨rest, if groupCount0 > 0 then index0 else index0 + 1,
                      if groupCount0 > 0 then groupCount0 - 1 else 0, sep⟩ := by
                simp only [parseArgsStep]
                rw [if_neg h1, if_neg h2, if_neg h3, if_neg h4, if_pos h5]
              rw [parseArgsLoop_succ_next n hstep]
              obtain ⟨ihs, ihm⟩ := ih ⟨rest, if groupCount0 > 0 then index0 else index0 + 1,
                if groupCount0 > 0 then groupCount0 - 1 else 0, sep⟩
              have hLB' : (if groupCount0 > 0 then index0 else index0 + 1) ≤
                  indexLB ⟨rest, if groupCount0 > 0 then index0 else index0 + 1,
                    if groupCount0 > 0 then groupCount0 - 1 else 0, sep⟩ := by
                unfold indexLB
                dsimp only
                split <;> omega
              constructor
              · refine List.pairwise_cons.mpr ⟨?_, ihs⟩
                intro t ht
                have := ihm t ht
                simp only
                omega
              · intro t ht
                rw [hLB]
                rcases List.mem_cons.mp ht with h | h
                · subst h; exact le_refl _
                · have := ihm t h
                  omega
            · have hstep : parseArgsStep compat ⟨arg :: rest, index0, groupCount0, sep⟩ =
                  .next [⟨.positional, if groupCount0 > 0 then index0 else index0 + 1,
                      none, none, some arg, none⟩]
                    ⟨rest, if groupCount0 > 0 then index0 else index0 + 1,
                      if groupCount0 > 0 then groupCount0 - 1 else 0, sep⟩ := by
                simp only [parseArgsStep]
                rw [if_neg h1, if_neg h2, if_neg h3, if_neg h4, if_neg h5]
              rw [parseArgsLoop_succ_next n hstep]
              obtain ⟨ihs, ihm⟩ := ih ⟨rest, if groupCount0 > 0 then index0 else index0 + 1,
                if groupCount0 > 0 then groupCount0 - 1 else 0, sep⟩
              have hLB' : (if groupCount0 > 0 then index0 else index0 + 1) ≤
                  indexLB ⟨rest, if groupCount0 > 0 then index0 else index0 + 1,
                    if groupCount0 > 0 then groupCount0 - 1 else 0, sep⟩ := by
                unfold indexLB
                dsimp only
                split <;> omega
              constructor
              · refine List.pairwise_cons.mpr ⟨?_, ihs⟩
                intro t ht
                have := ihm t ht
                simp only
                omega
              · intro t ht
                rw [hLB]
                rcases List.mem_cons.mp ht with h | h
                · subst h; exact le_refl _
                · have := ihm t h
                  omega

/-! ### Grouped short options share the group's index -/

lemma isShortOptionGroup_eq_false_of_len2 (s : String) (h : s.data.length = 2) :
    isShortOptionGroup s = false := by
  unfold isShortOptionGroup
  rcases hd : s.data with _ | ⟨c0, _ | ⟨c1, _ | ⟨c2, t⟩⟩⟩ <;> rw [hd] at h <;>
    simp_all

lemma expandGroup_dropLast_nonGroup (compat sep : Bool) (arg : String) :
    ∀ a ∈ ((expandGroup compat sep arg).1).dropLast, isShortOptionGroup a = false := by
  intro a ha
  obtain ⟨_, hmem, _⟩ := expandGroupAux_spec compat (arg.data.drop 1) sep [] []
  have hmem' : a ∈ (expandGroupAux compat (arg.data.drop 1) sep [] []).1 := by
    unfold expandGroup at ha
    dsimp only at ha
    rcases hsv : (expandGroupAux compat (arg.data.drop 1) sep [] []).2.1.isEmpty with _ | _
    · rw [hsv] at ha
      simp only [Bool.false_eq_true, if_false] at ha
      rw [List.dropLast_concat] at ha
      exact ha
    · rw [hsv] at ha
      simp only [if_true, List.append_nil] at ha
      exact List.dropLast_subset _ ha
  rcases hmem a hmem' with h | h
  · simp at h
  · exact isShortOptionGroup_eq_false_of_len2 a h

lemma isShortOptionGroup_facts (s : String) (h : isShortOptionGroup s = true) :
    ¬s = "--" ∧ isShortOption s = false := by
  obtain ⟨c0, c1, c2, t, hd⟩ :
      ∃ c0 c1 c2 t, s.data = c0 :: c1 :: c2 :: t := by
    unfold isShortOptionGroup at h
    rcases hd : s.data with _ | ⟨c0, _ | ⟨c1, _ | ⟨c2, t⟩⟩⟩ <;> rw [hd] at h
    · simp at h
    · simp at h
    · simp at h
    · exact ⟨c0, c1, c2, t, rfl⟩
  constructor
  · intro he
    have hdd : ("--" : String).data = ['-', '-'] := rfl
    rw [he, hdd] at hd
    simp at hd
  · unfold isShortOption
    rw [hd]

/-- While the whole queue consists of re-injected expansion items (and only
the last of them can itself be a group), every option token still to be
emitted carries the current index. -/
lemma parseArgsLoop_group_freeze (compat : Bool) :
    ∀ (fuel : Nat) (st : TokenizerState),
      st.queue.length ≤ st.groupCount →
      (∀ a ∈ st.queue.dropLast, isShortOptionGroup a = false) →
      ∀ t ∈ parseArgsLoop compat fuel st, t.kind = .option → t.index = st.index := by
  intro fuel
  induction fuel with
  | zero => intro st _ _ t ht; simp [parseArgsLoop] at ht
  | succ n ih =>
    intro st hlen hlast
    obtain ⟨q, index0, groupCount0, sep⟩ := st
    rcases q with _ | ⟨arg, rest⟩
    · intro t ht
      rw [parseArgsLoop_nil] at ht
      simp at ht
    simp only [List.length_cons] at hlen
    have hg : groupCount0 > 0 := by omega
    by_cases h1 : arg = "--"
    · have hstep : parseArgsStep compat ⟨arg :: rest, index0, groupCount0, sep⟩ =
          .done (⟨.optionTerminator, index0, none, none, none, none⟩ ::
            terminatorPositionals index0 rest) := by
        simp [parseArgsStep, h1, hg]
      intro t ht hk
      rw [parseArgsLoop_succ_done n hstep] at ht
      rcases List.mem_cons.mp ht with h | h
      · subst h; simp at hk
      · have := ((terminatorPositionals_spec rest index0).2 t h).2
        rw [this] at hk
        simp at hk
    · by_cases h2 : isShortOption arg = true
      · by_cases hg1 : groupCount0 - 1 > 0
        · by_cases hc : (decide (groupCount0 - 1 = 1) && hasOptionValue rest.head?) = true
          · rcases rest with _ | ⟨v, rest'⟩
            · have hstep : parseArgsStep compat ⟨[arg], index0, groupCount0, sep⟩ =
                  .next [⟨.option, index0, some (shortOptionName arg), some arg, none, none⟩]
                    ⟨[], index0, groupCount0 - 1, sep⟩ := by
                simp [parseArgsStep, h1, h2, hg, hg1, hc]
              intro t ht hk
              rw [parseArgsLoop_succ_next n hstep, parseArgsLoop_nil] at ht
              simp only [List.append_nil, List.mem_singleton] at ht
              subst ht
              rfl
            · have hc1 : groupCount0 - 1 = 1 := by
                have := (Bool.and_eq_true _ _).mp hc
                exact of_decide_eq_true this.1
              have hrest' : rest' = [] := by
                simp only [List.length_cons] at hlen
                have : rest'.length = 0 := by omega
                exact List.length_eq_zero.mp this
              subst hrest'
              have hstep : parseArgsStep compat ⟨arg :: [v], index0, groupCount0, sep⟩ =
                  .next [⟨.option, index0, some (shortOptionName arg), some arg, none, none⟩,
                      ⟨.option, index0, none, none, some v, if sep then some true else none⟩]
                    ⟨[], index0 + 1, groupCount0 - 1, false⟩ := by
                simp only [parseArgsStep, if_pos hg]
                rw [if_neg h1, if_pos h2, if_pos hg1, if_pos hc]
              intro t ht hk
              rw [parseArgsLoop_succ_next n hstep, parseArgsLoop_nil] at ht
              simp only [List.append_nil, List.mem_cons, List.mem_singleton] at ht
              rcases ht with h | h | h
              · subst h; rfl
              · subst h; rfl
              · simp at h
          · have hstep : parseArgsStep compat ⟨arg :: rest, index0, groupCount0, sep⟩ =
                .next [⟨.option, index0, some (shortOptionName arg), some arg, none, none⟩]
                  ⟨rest, index0, groupCount0 - 1, sep⟩ := by
              simp only [parseArgsStep, if_pos hg]
              rw [if_neg h1, if_pos h2, if_pos hg1, if_neg hc]
            intro t ht hk
            rw [parseArgsLoop_succ_next n hstep] at ht
            rcases List.mem_cons.mp (by simpa using ht) with h | h
            · subst h; rfl
            · refine ih ⟨rest, index0, groupCount0 - 1, sep⟩ (by simpa using by omega) ?_ t h hk
              intro a ha
              refine hlast a ?_
              rcases rest with _ | ⟨b, rest₂⟩
              · simp at ha
              · rw [List.dropLast_cons₂]
                exact List.mem_cons_of_mem arg ha
        · -- groupCount0 = 1: the queue is a single item
          have hrest : rest = [] := by
            have : rest.length = 0 := by omega
            exact List.length_eq_zero.mp this
          subst hrest
          have hstep : parseArgsStep compat ⟨[arg], index0, groupCount0, sep⟩ =
              .next [⟨.option, index0, some (shortOptionName arg), some arg, none, none⟩]
                ⟨[], index0, 0, sep⟩ := by
            simp only [parseArgsStep, if_pos hg]
            rw [if_neg h1, if_pos h2, if_neg hg1]
            have : groupCount0 - 1 = 0 := by omega
            rw [this]
          intro t ht hk
          rw [parseArgsLoop_succ_next n hstep, parseArgsLoop_nil] at ht
          simp only [List.append_nil, List.mem_singleton] at ht
          subst ht
          rfl
      · by_cases h3 : isShortOptionGroup arg = true
        · -- a group item must be the last queue item
          have hrest : rest = [] := by
            rcases rest with _ | ⟨b, rest₂⟩
            · rfl
            · exfalso
              have : arg ∈ (arg :: b :: rest₂).dropLast := by
                rw [List.dropLast_cons₂]
                exact List.mem_cons_self _ _
              rw [hlast arg this] at h3
              simp at h3
          subst hrest
          have hstep : parseArgsStep compat ⟨[arg], index0, groupCount0, sep⟩ =
              .next []
                ⟨(expandGroup compat sep arg).1 ++ [], index0,
                  (expandGroup compat sep arg).1.length, (expandGroup compat sep arg).2⟩ := by
            simp only [parseArgsStep, if_pos hg]
            rw [if_neg h1, if_neg h2, if_pos h3]
          intro t ht hk
          rw [parseArgsLoop_succ_next n hstep] at ht
          simp only [List.nil_append] at ht
          refine ih ⟨(expandGroup compat sep arg).1 ++ [], index0,
            (expandGroup compat sep arg).1.length, (expandGroup compat sep arg).2⟩
            (by simp) ?_ t ht hk
          -- all expansion items except a trailing value are two-character flags
          intro a ha
          obtain ⟨_, hmem, _⟩ := expandGroupAux_spec compat (arg.data.drop 1) sep [] []
          simp only [List.append_nil] at ha
          have hmem' : a ∈ (expandGroupAux compat (arg.data.drop 1) sep [] []).1 := by
            unfold expandGroup at ha
            dsimp only at ha
            rcases hsv : (expandGroupAux compat (arg.data.drop 1) sep [] []).2.1.isEmpty with _ | _
            · rw [hsv] at ha
              simp only [Bool.false_eq_true, if_false] at ha
              rw [List.dropLast_concat] at ha
              exact ha
            · rw [hsv] at ha
              simp only [if_true, List.append_nil] at ha
              exact List.dropLast_subset _ ha
          rcases hmem a hmem' with h | h
          · simp at h
          · exact isShortOptionGroup_eq_false_of_len2 a h
        · -- long option, long option with value, or positional: one token, then the tail
          have htail : ∀ (tok : ArgToken),
              parseArgsStep compat ⟨arg :: rest, index0, groupCount0, sep⟩ =
                .next [tok] ⟨rest, index0, groupCount0 - 1, sep⟩ →
              tok.index = index0 →
              ∀ t ∈ parseArgsLoop compat (n + 1) ⟨arg :: rest, index0, groupCount0, sep⟩,
                t.kind = .option → t.index = index0 := by
            intro tok hstep htok t ht hk
            rw [parseArgsLoop_succ_next n hstep] at ht
            rcases List.mem_cons.mp (by simpa using ht) with h | h
            · subst h; exact htok
            · refine ih ⟨rest, index0, groupCount0 - 1, sep⟩ (by simpa using by omega) ?_ t h hk
              intro a ha
              refine hlast a ?_
              rcases rest with _ | ⟨b, rest₂⟩
              · simp at ha
              · rw [List.dropLast_cons₂]
                exact List.mem_cons_of_mem arg ha
          by_cases h4 : isLongOption arg = true
          · refine htail ⟨.option, index0, some (sliceFrom2 arg), some arg, none, none⟩ ?_ rfl
            simp only [parseArgsStep, if_pos hg]
            rw [if_neg h1, if_neg h2, if_neg h3, if_pos h4]
          · by_cases h5 : isLongOptionAndValue arg = true
            · refine htail ⟨.option, index0, some (longOptionEqSplit arg).1,
                some ("--" ++ (longOptionEqSplit arg).1), some (longOptionEqSplit arg).2,
                some true⟩ ?_ rfl
              simp only [parseArgsStep, if_pos hg]
              rw [if_neg h1, if_neg h2, if_neg h3, if_neg h4, if_pos h5]
            · refine htail ⟨.positional, index0, none, none, some arg, none⟩ ?_ rfl
              simp only [parseArgsStep, if_pos hg]
              rw [if_neg h1, if_neg h2, if_neg h3, if_neg h4, if_neg h5]

/-! ### Round-trip for long `=`-valued options and positionals -/

lemma isLongEqValued_elim (e : String) (h : isLongEqValued e = true) :
    ∃ c t, e.data = '-' :: '-' :: c :: t ∧ includesEqFrom3 e = true := by
  unfold isLongEqValued at h
  rcases hd : e.data with _ | ⟨c0, _ | ⟨c1, _ | ⟨c2, t⟩⟩⟩ <;> rw [hd] at h
  · simp at h
  · simp at h
  · simp at h
  · simp only [Bool.and_eq_true, decide_eq_true_eq] at h
    obtain ⟨⟨hc0, hc1⟩, heq⟩ := h
    subst hc0
    subst hc1
    exact ⟨c2, t, rfl, heq⟩

lemma isLongEqValued_facts (e : String) (h : isLongEqValued e = true) :
    ¬e = "--" ∧ isShortOption e = false ∧ isShortOptionGroup e = false ∧
      isLongOption e = false ∧ isLongOptionAndValue e = true := by
  obtain ⟨c, t, hd, heq⟩ := isLongEqValued_elim e h
  refine ⟨?_, ?_, ?_, ?_, ?_⟩
  · intro he
    rw [he] at hd
    simp at hd
  · unfold isShortOption
    rw [hd]
  · unfold isShortOptionGroup
    rw [hd]
    simp
  · unfold isLongOption
    rw [heq]
    simp
  · unfold isLongOptionAndValue
    rw [heq]
    unfold hasLongOptionPrefix
    rw [hd]
    simp only [List.length_cons, Bool.and_true, gt_iff_lt]
    have : containsDashDash ('-' :: '-' :: c :: t) = true := rfl
    rw [this]
    simp

lemma isPositionalLike_facts (e : String) (h : isPositionalLike e = true) :
    ¬e = "--" ∧ isShortOption e = false ∧ isShortOptionGroup e = false ∧
      isLongOption e = false ∧ isLongOptionAndValue e = false := by
  unfold isPositionalLike at h
  simp only [Bool.and_eq_true, Bool.not_eq_true'] at h
  obtain ⟨⟨⟨hne, hshort⟩, hgroup⟩, hlong⟩ := h
  refine ⟨?_, hshort, hgroup, ?_, ?_⟩
  · intro he
    rw [decide_eq_false_iff_not] at hne
    exact hne he
  · unfold isLongOption
    rw [hlong]
    rfl
  · unfold isLongOptionAndValue
    rw [hlong]
    rfl

/-- Splitting a long `=`-valued option at its first `=` and re-joining
reconstructs the original text. -/
lemma longOptionEqSplit_reconstruct (e : String) (h : isLongEqValued e = true) :
    "--" ++ (longOptionEqSplit e).1 ++ "=" ++ (longOptionEqSplit e).2 = e := by
  obtain ⟨c, t, hd, heq⟩ := isLongEqValued_elim e h
  have hmem : ∃ x ∈ c :: t, (x = '=' : Bool) := by
    unfold includesEqFrom3 at heq
    rw [hd] at heq
    simp only [List.drop_succ_cons, List.drop_zero] at heq
    rw [List.contains_iff_exists_mem_beq] at heq
    obtain ⟨x, hx, hbeq⟩ := heq
    refine ⟨x, List.mem_cons_of_mem c hx, ?_⟩
    have h' : ('=' : Char) = x := by simpa using hbeq
    exact decide_eq_true h'.symm
  have hjlt : (c :: t).findIdx (fun x => x = '=') < (c :: t).length :=
    List.findIdx_lt_length_of_exists hmem
  have hi : firstEqIndex e = (c :: t).findIdx (fun x => x = '=') + 2 := by
    unfold firstEqIndex
    rw [hd, List.findIdx_cons, List.findIdx_cons]
    have hdec : (decide ('-' = '=')) = false := rfl
    rw [hdec]
    rfl
  set j := (c :: t).findIdx (fun x => x = '=') with hj
  have hgetj : (c :: t)[j] = '=' := by
    have := List.findIdx_getElem (w := hjlt)
    simpa using this
  have h1 : (longOptionEqSplit e).1.data = (c :: t).take j := by
    unfold longOptionEqSplit
    dsimp only
    rw [hi, hd]
    simp only [List.drop_succ_cons, List.drop_zero, Nat.add_sub_cancel]
  have h2 : (longOptionEqSplit e).2.data = (c :: t).drop (j + 1) := by
    unfold longOptionEqSplit
    dsimp only
    rw [hi, hd]
    show (('-' :: '-' :: c :: t).drop (j + 2 + 1)) = (c :: t).drop (j + 1)
    simp [List.drop_succ_cons]
  apply String.ext
  show ("--" ++ (longOptionEqSplit e).1 ++ "=" ++ (longOptionEqSplit e).2).data = e.data
  rw [String.data_append, String.data_append, String.data_append, h1, h2, hd]
  show ['-', '-'] ++ (c :: t).take j ++ ['='] ++ (c :: t).drop (j + 1) =
    '-' :: '-' :: c :: t
  have hsurgery : (c :: t).take j ++ '=' :: (c :: t).drop (j + 1) = c :: t := by
    conv_rhs => rw [← List.take_append_drop j (c :: t)]
    rw [List.drop_eq_getElem_cons hjlt, hgetj]
  simp only [List.append_assoc, List.singleton_append]
  rw [hsurgery]
  rfl

lemma roundtrip_loop (compat : Bool) :
    ∀ (q : List String) (fuel : Nat) (i : Int),
      queueCost q < fuel →
      (∀ e ∈ q, isLongEqValued e = true ∨ isPositionalLike e = true) →
      (parseArgsLoop compat fuel ⟨q, i, 0, false⟩).map renderToken = q := by
  intro q
  induction q with
  | nil =>
    intro fuel i _ _
    rw [parseArgsLoop_nil]
    rfl
  | cons e q' ih =>
    intro fuel i hfuel hclass
    have hpos := argCost_pos e
    rw [queueCost_cons] at hfuel
    rcases fuel with _ | n
    · omega
    have hclass' : ∀ a ∈ q', isLongEqValued a = true ∨ isPositionalLike a = true :=
      fun a ha => hclass a (List.mem_cons_of_mem e ha)
    rcases hclass e (List.mem_cons_self e q') with hLE | hPL
    · obtain ⟨h1, h2, h3, h4, h5⟩ := isLongEqValued_facts e hLE
      have hstep : parseArgsStep compat ⟨e :: q', i, 0, false⟩ =
          .next [⟨.option, i + 1, some (longOptionEqSplit e).1,
              some ("--" ++ (longOptionEqSplit e).1), some (longOptionEqSplit e).2, some true⟩]
            ⟨q', i + 1, 0, false⟩ := by
        simp only [parseArgsStep, gt_iff_lt, Nat.lt_irrefl, if_false]
        rw [if_neg h1, if_neg (by rw [h2]; simp : ¬isShortOption e = true),
          if_neg (by rw [h3]; simp : ¬isShortOptionGroup e = true),
          if_neg (by rw [h4]; simp : ¬isLongOption e = true), if_pos h5]
      rw [parseArgsLoop_succ_next n hstep]
      rw [List.map_append]
      rw [ih n (i + 1) (by omega) hclass']
      simp only [List.map_cons, List.map_nil, List.singleton_append]
      congr 1
      unfold renderToken
      simp only [if_pos rfl, Option.getD_some]
      exact longOptionEqSplit_reconstruct e hLE
    · obtain ⟨h1, h2, h3, h4, h5⟩ := isPositionalLike_facts e hPL
      have hstep : parseArgsStep compat ⟨e :: q', i, 0, false⟩ =
          .next [⟨.positional, i + 1, none, none, some e, none⟩] ⟨q', i + 1, 0, false⟩ := by
        simp only [parseArgsStep, gt_iff_lt, Nat.lt_irrefl, if_false]
        rw [if_neg h1, if_neg (by rw [h2]; simp : ¬isShortOption e = true),
          if_neg (by rw [h3]; simp : ¬isShortOptionGroup e = true),
          if_neg (by rw [h4]; simp : ¬isLongOption e = true),
          if_neg (by rw [h5]; simp : ¬isLongOptionAndValue e = true)]
      rw [parseArgsLoop_succ_next n hstep]
      rw [List.map_append]
      rw [ih n (i + 1) (by omega) hclass']
      rfl

/-! ### Elements before a given one can be skipped when they are neither
terminators nor short-option groups -/

lemma facts_of_nonhyphen (e : String) (hlen : e.data.length > 2)
    (hstart : e.data.head? ≠ some '-') :
    ¬e = "--" ∧ isShortOption e = false ∧ isShortOptionGroup e = false := by
  refine ⟨?_, ?_, ?_⟩
  · intro he
    rw [he] at hstart
    exact hstart rfl
  · unfold isShortOption
    rcases hd : e.data with _ | ⟨c0, _ | ⟨c1, _ | ⟨c2, t⟩⟩⟩ <;> rw [hd] at hstart hlen <;>
      simp_all
  · unfold isShortOptionGroup
    rcases hd : e.data with _ | ⟨c0, _ | ⟨c1, _ | ⟨c2, t⟩⟩⟩ <;> rw [hd] at hstart <;>
      simp_all

lemma loop_skip (compat : Bool) :
    ∀ (pre : List String), ∀ (q' : List String) (i : Int) (fuel : Nat),
      queueCost (pre ++ q') < fuel →
      (∀ a ∈ pre, ¬a = "--" ∧ isShortOptionGroup a = false) →
      ∃ ts, parseArgsLoop compat fuel ⟨pre ++ q', i, 0, false⟩ =
        ts ++ parseArgsLoop compat (queueCost q' + 1) ⟨q', i + pre.length, 0, false⟩ := by
  intro pre
  induction pre with
  | nil =>
    intro q' i fuel hfuel _
    refine ⟨[], ?_⟩
    simp only [List.nil_append, List.length_nil, Nat.cast_zero, Int.add_zero]
    apply parseArgsLoop_fuel_irrel
    · dsimp only
      simp only [List.nil_append] at hfuel
      exact hfuel
    · dsimp only
      omega
  | cons a pre' ih =>
    intro q' i fuel hfuel hpre
    have hpos := argCost_pos a
    rw [List.cons_append, queueCost_cons] at hfuel
    rcases fuel with _ | n
    · omega
    obtain ⟨h1, h3⟩ := hpre a (List.mem_cons_self a pre')
    have hpre' : ∀ b ∈ pre', ¬b = "--" ∧ isShortOptionGroup b = false :=
      fun b hb => hpre b (List.mem_cons_of_mem a hb)
    have hrec : ∀ (tok : ArgToken),
        parseArgsStep compat ⟨a :: (pre' ++ q'), i, 0, false⟩ =
          .next [tok] ⟨pre' ++ q', i + 1, 0, false⟩ →
        ∃ ts, parseArgsLoop compat (n + 1) ⟨a :: (pre' ++ q') , i, 0, false⟩ =
          ts ++ parseArgsLoop compat (queueCost q' + 1)
            ⟨q', i + (a :: pre').length, 0, false⟩ := by
      intro tok hstep
      obtain ⟨ts', hts'⟩ := ih q' (i + 1) n (by omega) hpre'
      refine ⟨tok :: ts', ?_⟩
      rw [parseArgsLoop_succ_next n hstep, hts']
      have : i + 1 + (pre'.length : Int) = i + ((a :: pre').length : Int) := by
        simp only [List.length_cons]
        push_cast
        ring
      rw [this]
      rfl
    rw [List.cons_append]
    by_cases h2 : isShortOption a = true
    · refine hrec ⟨.option, i + 1, some (shortOptionName a), some a, none, none⟩ ?_
      simp only [parseArgsStep, gt_iff_lt, Nat.lt_irrefl, if_false]
      rw [if_neg h1, if_pos h2]
    · by_cases h4 : isLongOption a = true
      · refine hrec ⟨.option, i + 1, some (sliceFrom2 a), some a, none, none⟩ ?_
        simp only [parseArgsStep, gt_iff_lt, Nat.lt_irrefl, if_false]
        rw [if_neg h1, if_neg h2, if_neg (by rw [h3]; simp : ¬isShortOptionGroup a = true),
          if_pos h4]
      · by_cases h5 : isLongOptionAndValue a = true
        · refine hrec ⟨.option, i + 1, some (longOptionEqSplit a).1,
            some ("--" ++ (longOptionEqSplit a).1), some (longOptionEqSplit a).2, some true⟩ ?_
          simp only [parseArgsStep, gt_iff_lt, Nat.lt_irrefl, if_false]
          rw [if_neg h1, if_neg h2, if_neg (by rw [h3]; simp : ¬isShortOptionGroup a = true),
            if_neg h4, if_pos h5]
        · refine hrec ⟨.positional, i + 1, none, none, some a, none⟩ ?_
          simp only [parseArgsStep, gt_iff_lt, Nat.lt_irrefl, if_false]
          rw [if_neg h1, if_neg h2, if_neg (by rw [h3]; simp : ¬isShortOptionGroup a = true),
            if_neg h4, if_neg h5]

/-! ### Claim theorems about the tokenizer -/

/-- C6: `parseArgs` is pure and total: for every finite argv string array and
either compatibility mode, the work-queue loop (which re-injects
short-option-group expansions at the front of the queue) terminates — any
fuel beyond the queue measure yields the same token list, namely
`parseArgs args compat` — and every token is classified as an option,
option-terminator, or positional token. -/
theorem C6_parseArgs_total (args : List String) (compat : Bool) (fuel : Nat)
    (hfuel : queueCost args < fuel) :
    parseArgsLoop compat fuel ⟨args, -1, 0, false⟩ = parseArgs args compat ∧
    ∀ t ∈ parseArgs args compat,
      t.kind = .option ∨ t.kind = .optionTerminator ∨ t.kind = .positional := by
  constructor
  · exact parseArgsLoop_fuel_irrel compat fuel (queueCost args + 1)
      ⟨args, -1, 0, false⟩ (by dsimp only; omega) (by dsimp only; omega)
  · intro t _
    cases t.kind
    · exact Or.inl rfl
    · exact Or.inr (Or.inl rfl)
    · exact Or.inr (Or.inr rfl)

/-- Witness for C6 at a concrete argv and fuel. -/
theorem C6_parseArgs_total_witness :
    queueCost ["-abc", "--x=1", "--", "y"] < 3000 ∧
    (parseArgsLoop false 3000 ⟨["-abc", "--x=1", "--", "y"], -1, 0, false⟩ =
        parseArgs ["-abc", "--x=1", "--", "y"] false ∧
      ∀ t ∈ parseArgs ["-abc", "--x=1", "--", "y"] false,
        t.kind = .option ∨ t.kind = .optionTerminator ∨ t.kind = .positional) :=
  ⟨by decide, C6_parseArgs_total ["-abc", "--x=1", "--", "y"] false 3000 (by decide)⟩

/-- C2 counterexample: in `parseArgs ["-a=v"]` the implicit-value
continuation token (second token) carries index 0 — the same index as the
flag it continues — not the next index 1 the claim asserts. -/
theorem C2_continuation_counterexample :
    (parseArgs ["-a=v"] false).map ArgToken.index = [0, 0] ∧
      ¬((parseArgs ["-a=v"] false).map ArgToken.index = [0, 1]) := by
  constructor
  · decide
  · decide

/-- C2 (amended): token indexes are monotonically non-decreasing; every flag
synthesized from one expanded short-option group carries the group's index
(index 0 for a singleton argv); each positional expanded after the terminator
takes the next index; but the implicit-value continuation token shares the
index of the flag it continues instead of taking the next one. -/
theorem C2_index_monotone_amended :
    (∀ (args : List String) (compat : Bool), IndexSorted (parseArgs args compat)) ∧
    (∀ (s : String) (compat : Bool), isShortOptionGroup s = true →
      ∀ t ∈ parseArgs [s] compat, t.kind = .option → t.index = 0) ∧
    (∀ (rest : List String) (compat : Bool),
      parseArgs ("--" :: rest) compat =
        ⟨.optionTerminator, 0, none, none, none, none⟩ :: terminatorPositionals 0 rest) ∧
    parseArgs ["-a=v"] false =
      [⟨.option, 0, some "a", some "-a", none, none⟩,
       ⟨.option, 0, none, none, some "v", some true⟩] := by
  refine ⟨?_, ?_, ?_, by decide⟩
  · intro args compat
    exact (parseArgsLoop_mono compat (queueCost args + 1) ⟨args, -1, 0, false⟩).1
  · intro s compat hgrp t ht hk
    obtain ⟨hne, hshort⟩ := isShortOptionGroup_facts s hgrp
    have hstep : parseArgsStep compat ⟨[s], -1, 0, false⟩ =
        .next [] ⟨(expandGroup compat false s).1 ++ [], (-1 : Int) + 1,
          (expandGroup compat false s).1.length, (expandGroup compat false s).2⟩ := by
      simp only [parseArgsStep, gt_iff_lt, Nat.lt_irrefl, if_false]
      rw [if_neg hne, if_neg (by rw [hshort]; simp : ¬isShortOption s = true), if_pos hgrp]
    unfold parseArgs at ht
    rw [parseArgsLoop_succ_next (queueCost [s]) hstep] at ht
    simp only [List.nil_append] at ht
    have := parseArgsLoop_group_freeze compat (queueCost [s])
      ⟨(expandGroup compat false s).1 ++ [], (-1 : Int) + 1,
        (expandGroup compat false s).1.length, (expandGroup compat false s).2⟩
      (by simp) (by simpa using expandGroup_dropLast_nonGroup compat false s) t ht hk
    simp only at this
    omega
  · intro rest compat
    have hstep : parseArgsStep compat ⟨"--" :: rest, -1, 0, false⟩ =
        .done (⟨.optionTerminator, (-1 : Int) + 1, none, none, none, none⟩ ::
          terminatorPositionals ((-1 : Int) + 1) rest) := by
      simp only [parseArgsStep, gt_iff_lt, Nat.lt_irrefl, if_false, eq_self_iff_true, if_true]
    unfold parseArgs
    rw [parseArgsLoop_succ_done (queueCost ("--" :: rest)) hstep]
    norm_num

/-- Witness for C2 at concrete inputs. -/
theorem C2_index_monotone_witness :
    isShortOptionGroup "-ab" = true ∧
    (⟨.option, 0, some "b", some "-b", none, none⟩ : ArgToken) ∈ parseArgs ["-ab"] false ∧
    (⟨.option, 0, some "b", some "-b", none, none⟩ : ArgToken).index = 0 :=
  ⟨by decide, by decide,
    C2_index_monotone_amended.2.1 "-ab" false (by decide)
      ⟨.option, 0, some "b", some "-b", none, none⟩ (by decide) (by decide)⟩

/-- C7: for argv made only of long `=`-valued options and positionals,
rendering each token of `parseArgs argv` (an option token as its `rawName`
joined by `=` to its `value` when `inlineValue` is set, a positional token
as its `value`) reconstructs argv exactly. -/
theorem C7_roundtrip (argv : List String) (compat : Bool)
    (h : ∀ e ∈ argv, isLongEqValued e = true ∨ isPositionalLike e = true) :
    (parseArgs argv compat).map renderToken = argv :=
  roundtrip_loop compat argv (queueCost argv + 1) (-1) (by omega) h

/-- Witness for C7 at a concrete argv. -/
theorem C7_roundtrip_witness :
    (∀ e ∈ ["--foo=bar", "dev", "--x=", "a=b"],
      isLongEqValued e = true ∨ isPositionalLike e = true) ∧
    (parseArgs ["--foo=bar", "dev", "--x=", "a=b"] false).map renderToken =
      ["--foo=bar", "dev", "--x=", "a=b"] :=
  ⟨by decide, C7_roundtrip ["--foo=bar", "dev", "--x=", "a=b"] false (by decide)⟩

/-- C10 counterexample: `a--b` (longer than two characters, not beginning
with `-`, containing `--`) is emitted as a positional token when it follows
the `--` terminator, so `parseArgs` does not always classify such an element
as a long option. -/
theorem C10_terminator_counterexample :
    ("a--b".data.length > 2 ∧ "a--b".data.head? ≠ some '-' ∧
      containsDashDash "a--b".data = true ∧ includesEqFrom3 "a--b" = false) ∧
    parseArgs ["--", "a--b"] false =
      [⟨.optionTerminator, 0, none, none, none, none⟩,
       ⟨.positional, 1, none, none, some "a--b", none⟩] := by
  constructor
  · refine ⟨by decide, by decide, by decide, by decide⟩
  · decide

/-- C10 (amended): an argv element longer than two characters that does not
begin with `-` but contains `--` (and has no `=` at index 3 or later) is
classified as a long option — an option token whose `rawName` is the element
and whose `name` is the element minus its first two characters — provided no
earlier element is the `--` terminator or a short-option group (whose
expansion can inject a terminator). -/
theorem C10_inner_dashdash_long_option (pre post : List String) (e : String) (compat : Bool)
    (hlen : e.data.length > 2) (hstart : e.data.head? ≠ some '-')
    (hdash : containsDashDash e.data = true) (heq3 : includesEqFrom3 e = false)
    (hpre : ∀ a ∈ pre, ¬a = "--" ∧ isShortOptionGroup a = false) :
    ∃ ts rest', parseArgs (pre ++ e :: post) compat =
      ts ++ ⟨.option, (pre.length : Int), some (sliceFrom2 e), some e, none, none⟩ :: rest' := by
  obtain ⟨hne, hshort, hgroup⟩ := facts_of_nonhyphen e hlen hstart
  have hlong : isLongOption e = true := by
    unfold isLongOption hasLongOptionPrefix
    rw [heq3, hdash]
    simp only [Bool.not_false, Bool.and_true]
    simp only [gt_iff_lt, decide_eq_true_eq]
    omega
  unfold parseArgs
  obtain ⟨ts, hts⟩ := loop_skip compat pre (e :: post) (-1)
    (queueCost (pre ++ e :: post) + 1) (by omega) hpre
  rw [hts]
  have hstep : parseArgsStep compat ⟨e :: post, -1 + (pre.length : Int), 0, false⟩ =
      .next [⟨.option, -1 + (pre.length : Int) + 1, some (sliceFrom2 e), some e, none, none⟩]
        ⟨post, -1 + (pre.length : Int) + 1, 0, false⟩ := by
    simp only [parseArgsStep, gt_iff_lt, Nat.lt_irrefl, if_false]
    rw [if_neg hne, if_neg (by rw [hshort]; simp : ¬isShortOption e = true),
      if_neg (by rw [hgroup]; simp : ¬isShortOptionGroup e = true), if_pos hlong]
  rw [parseArgsLoop_succ_next (queueCost (e :: post)) hstep]
  refine ⟨ts, parseArgsLoop compat (queueCost (e :: post))
    ⟨post, -1 + (pre.length : Int) + 1, 0, false⟩, ?_⟩
  have : (-1 : Int) + (pre.length : Int) + 1 = (pre.length : Int) := by omega
  rw [this]
  rfl

/-- Witness for C10 (amended) at concrete inputs. -/
theorem C10_inner_dashdash_witness :
    ("a--b".data.length > 2 ∧ "a--b".data.head? ≠ some '-' ∧
      containsDashDash "a--b".data = true ∧ includesEqFrom3 "a--b" = false ∧
      (∀ a ∈ ["x"], ¬a = "--" ∧ isShortOptionGroup a = false)) ∧
    ∃ ts rest', parseArgs (["x"] ++ "a--b" :: ["y"]) false =
      ts ++ ⟨.option, ((["x"] : List String).length : Int),
        some (sliceFrom2 "a--b"), some "a--b", none, none⟩ :: rest' :=
  ⟨⟨by decide, by decide, by decide, by decide, by decide⟩,
    C10_inner_dashdash_long_option ["x"] ["y"] "a--b" false (by decide) (by decide)
      (by decide) (by decide) (by decide)⟩

/-! ### Claim theorems about the resolver: concrete end-to-end cases -/

/-- C3: resolving the tokens of `parseArgs ["dev", "-p9131", "--host",
"example.com"]` against the host/port schema with default options yields
`port = 9131` (a number, the grouped characters concatenated), `host =
"example.com"`, positionals `["dev"]`, and no error. -/
theorem C3_end_to_end :
    resolveArgs argsHostPort (parseArgs ["dev", "-p9131", "--host", "example.com"] false) {} =
      .ok { values := [("host", .str "example.com"), ("port", .num 9131)],
            positionals := [some "dev"],
            rest := [],
            error := none,
            explicit := [("host", true), ("port", true)] } := rfl

lemma checkConflictsLoop_length_le_one (args0 : Args) (explicit : List (String × Bool))
    (toKebab : Bool) (names : List (String × String)) :
    ∀ fields : List (String × ArgSchema),
      (checkConflictsLoop args0 explicit toKebab names fields).length ≤ 1 := by
  intro fields
  induction fields with
  | nil => simp [checkConflictsLoop]
  | cons f rest ih =>
    obtain ⟨rawArg, schema⟩ := f
    unfold checkConflictsLoop
    split
    · exact ih
    · split
      · exact ih
      · split
        · simp
        · exact ih

/-- C4: the conflict pass reports at most one Conflict error on every input
(fail-fast after the first pair found in declaration x array order), and on
the boolean schema `{a conflicts [b, c], b, c}` with argv
`["--a", "--b", "--c"]` the result carries exactly one Conflict error naming
`--a` and `--b` (the literal forms typed). -/
theorem C4_conflict_fail_fast :
    (∀ (args0 : Args) (explicit : List (String × Bool)) (toKebab : Bool)
      (names : List (String × String)) (fields : List (String × ArgSchema)),
      (checkConflictsLoop args0 explicit toKebab names fields).length ≤ 1) ∧
    resolveArgs argsConflict (parseArgs ["--a", "--b", "--c"] false) {} =
      .ok { values := [("a", .bool true), ("b", .bool true), ("c", .bool true)],
            positionals := [],
            rest := [],
            error := some [.argResolve ("Optional argument " ++ apos ++ "--a" ++ apos ++
              " conflicts with " ++ apos ++ "--b" ++ apos) "a" .conflict],
            explicit := [("a", true), ("b", true), ("c", true)] } :=
  ⟨checkConflictsLoop_length_le_one, rfl⟩

lemma parseArgs_longport (v : String) (hv : isPositionalLike v = true) :
    parseArgs ["--port", v] false =
      [⟨.option, 0, some "port", some "--port", none, none⟩,
       ⟨.positional, 1, none, none, some v, none⟩] := by
  obtain ⟨h1, h2, h3, h4, h5⟩ := isPositionalLike_facts v hv
  unfold parseArgs
  have hstep1 : parseArgsStep false ⟨["--port", v], -1, 0, false⟩ =
      .next [⟨.option, (-1 : Int) + 1, some "port", some "--port", none, none⟩]
        ⟨[v], (-1 : Int) + 1, 0, false⟩ := by
    simp only [parseArgsStep, gt_iff_lt, Nat.lt_irrefl, if_false]
    rw [if_neg (by decide : ¬("--port" : String) = "--"),
      if_neg (by decide : ¬isShortOption "--port" = true),
      if_neg (by decide : ¬isShortOptionGroup "--port" = true),
      if_pos (by decide : isLongOption "--port" = true)]
    rfl
  rw [parseArgsLoop_succ_next (queueCost ["--port", v]) hstep1]
  have hfi : parseArgsLoop false (queueCost ["--port", v]) ⟨[v], (-1 : Int) + 1, 0, false⟩ =
      parseArgsLoop false (queueCost [v] + 1) ⟨[v], (-1 : Int) + 1, 0, false⟩ := by
    apply parseArgsLoop_fuel_irrel
    · dsimp only
      have := argCost_pos "--port"
      simp only [queueCost_cons]
      omega
    · dsimp only
      omega
  rw [hfi]
  have hstep2 : parseArgsStep false ⟨[v], (-1 : Int) + 1, 0, false⟩ =
      .next [⟨.positional, (-1 : Int) + 1 + 1, none, none, some v, none⟩]
        ⟨[], (-1 : Int) + 1 + 1, 0, false⟩ := by
    simp only [parseArgsStep, gt_iff_lt, Nat.lt_irrefl, if_false]
    rw [if_neg h1, if_neg (by rw [h2]; simp : ¬isShortOption v = true),
      if_neg (by rw [h3]; simp : ¬isShortOptionGroup v = true),
      if_neg (by rw [h4]; simp : ¬isLongOption v = true),
      if_neg (by rw [h5]; simp : ¬isLongOptionAndValue v = true)]
  rw [parseArgsLoop_succ_next (queueCost [v]) hstep2, parseArgsLoop_nil]
  norm_num

/-- C9: when an option token matches a non-positional field but its value
fails coercion (a number-typed field given any non-numeric value),
`resolveArgs` still marks the field explicit, appends exactly one Type
error, and still installs the declared default — the field is
simultaneously explicit, carries its default, and produced an error. -/
theorem C9_type_error_keeps_default_and_explicit (v : String)
    (hnum : isNumeric v = false) (hv : isPositionalLike v = true) :
    resolveArgs argsPort (parseArgs ["--port", v] false) {} =
      .ok { values := [("port", .num 8080)],
            positionals := [],
            rest := [],
            error := some [.argResolve ("Optional argument " ++ apos ++ "--port" ++ apos ++
              " should be " ++ apos ++ "number" ++ apos) "port" .type],
            explicit := [("port", true)] } := by
  rw [parseArgs_longport v hv]
  simp [resolveArgs, analyzeTokens, analyzeStep, applyLongOptionValue, applyShortOptionValue,
    argsLookup, argsPort, resolveFieldsLoop, resolveField, resolveOptionTokens, matchesToken,
    checkTokenName, validateRequire, parseToken, requiredTokenFound, setAssoc, lookupAssoc,
    isNullish, checkConflictsLoop, fieldArgName, hnum, toShortValue, strTruthy,
    createTypeError, argTypeToString, fieldTokenBound,
    show hasLongOptionPrefix "--port" = true from by decide,
    show isShortOption "--port" = false from by decide]
  rfl

/-- Witness for C9 at the concrete non-numeric value `abc`. -/
theorem C9_type_error_witness :
    isNumeric "abc" = false ∧ isPositionalLike "abc" = true ∧
    resolveArgs argsPort (parseArgs ["--port", "abc"] false) {} =
      .ok { values := [("port", .num 8080)],
            positionals := [],
            rest := [],
            error := some [.argResolve ("Optional argument " ++ apos ++ "--port" ++ apos ++
              " should be " ++ apos ++ "number" ++ apos) "port" .type],
            explicit := [("port", true)] } :=
  ⟨by decide, by decide, C9_type_error_keeps_default_and_explicit "abc" (by decide) (by decide)⟩


/-! ### Association-list lemmas for the resolver state -/
lemma lookupAssoc_setAssoc_self {a : Type} (k : String) (v : a) :
    ∀ l : List (String × a), lookupAssoc (setAssoc l k v) k = some v := by
  intro l
  induction l with
  | nil => simp [setAssoc, lookupAssoc]
  | cons p rest ih =>
    by_cases hp : p.1 = k
    · simp [setAssoc, lookupAssoc, hp]
    · by_cases hany : rest.any (fun q => q.1 = k)
      · simp [setAssoc, lookupAssoc, hp, hany] at ih ⊢
        exact ih
      · simp [setAssoc, lookupAssoc, hp, hany] at ih ⊢
        exact ih

lemma find_map_set {a : Type} (k k' : String) (v : a) (h' : ¬k = k') :
    ∀ l : List (String × a),
      List.find? (fun p => p.1 = k') (l.map (fun p => if p.1 = k then (k, v) else p)) =
        List.find? (fun p => p.1 = k') l := by
  intro l
  induction l with
  | nil => rfl
  | cons q rest ih =>
    by_cases hq : q.1 = k
    · simp only [List.map_cons, if_pos hq, List.find?_cons]
      have h1 : (decide ((k, v).1 = k') : Bool) = false := by simp [h']
      have h2 : (decide (q.1 = k') : Bool) = false := by
        simp only [decide_eq_false_iff_not]
        rw [hq]
        exact h'
      rw [h1, h2]
      exact ih
    · simp only [List.map_cons, if_neg hq, List.find?_cons]
      rcases hd : (decide (q.1 = k') : Bool) with _ | _
      · exact ih
      · rfl

lemma lookupAssoc_setAssoc_other {a : Type} (k k' : String) (v : a) (h : ¬k' = k) :
    ∀ l : List (String × a), lookupAssoc (setAssoc l k v) k' = lookupAssoc l k' := by
  have h' : ¬k = k' := fun he => h he.symm
  intro l
  unfold setAssoc lookupAssoc
  split
  · rw [find_map_set k k' v h']
  · rw [List.find?_append]
    have hnone : List.find? (fun p => p.1 = k') [(k, v)] = none := by
      simp [h']
    rw [hnone, Option.or_none]

lemma mem_setAssoc {a : Type} (k : String) (v : a) :
    ∀ (l : List (String × a)) (p : String × a), p ∈ setAssoc l k v → p.1 = k ∨ p ∈ l := by
  intro l p hp
  unfold setAssoc at hp
  split at hp
  · rcases List.mem_map.mp hp with ⟨q, hq, hqe⟩
    by_cases hqk : q.1 = k
    · rw [if_pos hqk] at hqe
      exact Or.inl (by rw [← hqe])
    · rw [if_neg hqk] at hqe
      exact Or.inr (hqe ▸ hq)
  · rcases List.mem_append.mp hp with h | h
    · exact Or.inr h
    · simp only [List.mem_singleton] at h
      exact Or.inl (by rw [h])


-- explicit-flag tracking (C5)

lemma resolveOptionTokens_explicit (rawArg arg : String) (schema : ArgSchema) :
    ∀ (ts : List ArgToken) (st st' : ResolveState),
      resolveOptionTokens rawArg arg schema ts st = .ok st' →
      (∀ k, ¬k = rawArg → lookupAssoc st'.explicit k = lookupAssoc st.explicit k) ∧
      lookupAssoc st'.explicit rawArg =
        (if fieldTokenBound arg schema ts then some true else lookupAssoc st.explicit rawArg) := by
  intro ts
  induction ts with
  | nil =>
    intro st st' h
    unfold resolveOptionTokens at h
    cases h
    simp [fieldTokenBound]
  | cons token rest ih =>
    intro st st' h
    unfold resolveOptionTokens at h
    by_cases hm : matchesToken arg schema token = true
    · rw [if_pos hm] at h
      cases hv : validateRequire token arg schema with
      | some e =>
        rw [hv] at h
        obtain ⟨ho, hs⟩ := ih _ st' h
        refine ⟨fun k hk => ho k hk, ?_⟩
        rw [hs]
        simp [fieldTokenBound, List.any_cons, hm, hv]
      | none =>
        rw [hv] at h
        have hbound : fieldTokenBound arg schema (token :: rest) = true := by
          simp [fieldTokenBound, List.any_cons, hm, hv]
        rw [hbound]
        cases hp : parseToken token arg schema with
        | error e =>
          rw [hp] at h
          dsimp only at h
          exact absurd h (by simp)
        | ok inner =>
          rw [hp] at h
          cases inner with
          | error e =>
            dsimp only at h
            obtain ⟨ho, hs⟩ := ih _ st' h
            refine ⟨?_, ?_⟩
            · intro k hk
              rw [ho k hk]
              exact lookupAssoc_setAssoc_other rawArg k true hk st.explicit
            · rw [hs]
              split
              · rfl
              · exact lookupAssoc_setAssoc_self rawArg true st.explicit
          | ok v =>
            dsimp only at h
            by_cases hmul : schema.multiple = true
            · rw [if_pos hmul] at h
              obtain ⟨ho, hs⟩ := ih _ st' h
              refine ⟨?_, ?_⟩
              · intro k hk
                rw [ho k hk]
                exact lookupAssoc_setAssoc_other rawArg k true hk st.explicit
              · rw [hs]
                split
                · rfl
                · exact lookupAssoc_setAssoc_self rawArg true st.explicit
            · rw [if_neg hmul] at h
              obtain ⟨ho, hs⟩ := ih _ st' h
              refine ⟨?_, ?_⟩
              · intro k hk
                rw [ho k hk]
                exact lookupAssoc_setAssoc_other rawArg k true hk st.explicit
              · rw [hs]
                split
                · rfl
                · exact lookupAssoc_setAssoc_self rawArg true st.explicit
    · rw [if_neg hm] at h
      obtain ⟨ho, hs⟩ := ih _ _ h
      refine ⟨ho, ?_⟩
      rw [hs]
      simp [fieldTokenBound, List.any_cons, hm]


lemma resolvePositionalField_explicit_other (rawArg arg : String) (schema : ArgSchema)
    (pts : List ArgToken) (skipIdx : Int) (cnt : Nat) (st : ResolveState)
    (k : String) (hk : ¬k = rawArg) :
    lookupAssoc (resolvePositionalField rawArg arg schema pts skipIdx cnt st).explicit k =
      lookupAssoc st.explicit k := by
  unfold resolvePositionalField
  dsimp only
  repeat' split
  all_goals simp [lookupAssoc_setAssoc_other rawArg k _ hk]

lemma resolveField_explicit_other (OT PT : List ArgToken) (skipIdx : Int) (cnt : Nat)
    (toKebab : Bool) (st st' : ResolveState) (rawArg : String) (schema : ArgSchema)
    (k : String) (hk : ¬k = rawArg)
    (h : resolveField OT PT skipIdx cnt toKebab st rawArg schema = .ok st') :
    lookupAssoc st'.explicit k = lookupAssoc st.explicit k := by
  unfold resolveField at h
  dsimp only at h
  split at h
  · cases h
    rw [resolvePositionalField_explicit_other _ _ _ _ _ _ _ k hk]
    exact lookupAssoc_setAssoc_other rawArg k false hk st.explicit
  · split at h
    · cases h
      dsimp only
      exact lookupAssoc_setAssoc_other rawArg k false hk st.explicit
    · cases hloop : resolveOptionTokens rawArg (fieldArgName toKebab rawArg schema) schema OT
          { st with explicit := setAssoc st.explicit rawArg false } with
      | error e =>
        rw [hloop] at h
        exact absurd h (by simp)
      | ok st2 =>
        rw [hloop] at h
        dsimp only at h
        have ho := (resolveOptionTokens_explicit rawArg _ schema OT _ st2 hloop).1 k hk
        split at h <;> cases h
        · dsimp only
          rw [ho]
          exact lookupAssoc_setAssoc_other rawArg k false hk st.explicit
        · rw [ho]
          exact lookupAssoc_setAssoc_other rawArg k false hk st.explicit

lemma resolveField_explicit_self (OT PT : List ArgToken) (skipIdx : Int) (cnt : Nat)
    (toKebab : Bool) (st st' : ResolveState) (rawArg : String) (schema : ArgSchema)
    (hpos : ¬schema.type = ArgType.positional)
    (h : resolveField OT PT skipIdx cnt toKebab st rawArg schema = .ok st') :
    lookupAssoc st'.explicit rawArg =
      some (!(schema.required &&
          !requiredTokenFound (fieldArgName toKebab rawArg schema) schema OT) &&
        fieldTokenBound (fieldArgName toKebab rawArg schema) schema OT) := by
  unfold resolveField at h
  dsimp only at h
  rw [if_neg hpos] at h
  by_cases hreq : (schema.required &&
      !requiredTokenFound (fieldArgName toKebab rawArg schema) schema OT) = true
  · rw [if_pos hreq] at h
    cases h
    dsimp only
    rw [lookupAssoc_setAssoc_self, hreq]
    rfl
  · rw [if_neg hreq] at h
    rw [Bool.not_eq_true] at hreq
    cases hloop : resolveOptionTokens rawArg (fieldArgName toKebab rawArg schema) schema OT
        { st with explicit := setAssoc st.explicit rawArg false } with
    | error e =>
      rw [hloop] at h
      exact absurd h (by simp)
    | ok st2 =>
      rw [hloop] at h
      dsimp only at h
      have hs := (resolveOptionTokens_explicit rawArg _ schema OT _ st2 hloop).2
      have hself : lookupAssoc (setAssoc st.explicit rawArg false) rawArg = some false :=
        lookupAssoc_setAssoc_self rawArg false st.explicit
      rw [hreq, Bool.not_false, Bool.true_and]
      split at h <;> cases h
      · dsimp only
        rw [hs]
        split
        · rename_i hb
          rw [hb]
        · rename_i hb
          rw [Bool.not_eq_true] at hb
          rw [hb, hself]
      · rw [hs]
        split
        · rename_i hb
          rw [hb]
        · rename_i hb
          rw [Bool.not_eq_true] at hb
          rw [hb, hself]

lemma resolveField_explicit_self_positional_nil (OT : List ArgToken) (skipIdx : Int)
    (cnt : Nat) (toKebab : Bool) (st st' : ResolveState) (rawArg : String)
    (schema : ArgSchema) (hpos : schema.type = ArgType.positional)
    (h : resolveField OT [] skipIdx cnt toKebab st rawArg schema = .ok st') :
    lookupAssoc st'.explicit rawArg = some false := by
  unfold resolveField at h
  dsimp only at h
  rw [if_pos hpos] at h
  cases h
  unfold resolvePositionalField
  dsimp only
  repeat' split
  all_goals simp_all [lookupAssoc_setAssoc_self]


lemma resolveFieldsLoop_explicit_notmem (OT PT : List ArgToken) (skipIdx : Int) (cnt : Nat)
    (toKebab : Bool) (k : String) :
    ∀ (fields : List (String × ArgSchema)) (st st' : ResolveState),
      (∀ f ∈ fields, ¬f.1 = k) →
      resolveFieldsLoop OT PT skipIdx cnt toKebab fields st = .ok st' →
      lookupAssoc st'.explicit k = lookupAssoc st.explicit k := by
  intro fields
  induction fields with
  | nil =>
    intro st st' _ h
    cases h
    rfl
  | cons f rest ih =>
    intro st st' hmem h
    obtain ⟨rawArg, schema⟩ := f
    unfold resolveFieldsLoop at h
    cases hf : resolveField OT PT skipIdx cnt toKebab st rawArg schema with
    | error e =>
      rw [hf] at h
      exact absurd h (by simp)
    | ok st2 =>
      rw [hf] at h
      dsimp only at h
      have hk : ¬k = rawArg := fun he =>
        hmem (rawArg, schema) (List.mem_cons_self _ _) (by rw [← he])
      rw [ih st2 st' (fun f hf' => hmem f (List.mem_cons_of_mem _ hf')) h]
      exact resolveField_explicit_other OT PT skipIdx cnt toKebab st st2 rawArg schema k hk hf

lemma resolveFieldsLoop_explicit_main (OT PT : List ArgToken) (skipIdx : Int) (cnt : Nat)
    (toKebab : Bool) (k : String) (s : ArgSchema) (b : Bool)
    (hfield : ∀ st st₂ : ResolveState,
      resolveField OT PT skipIdx cnt toKebab st k s = .ok st₂ →
      lookupAssoc st₂.explicit k = some b) :
    ∀ (pre post : List (String × ArgSchema)) (st st' : ResolveState),
      (∀ f ∈ pre, ¬f.1 = k) → (∀ f ∈ post, ¬f.1 = k) →
      resolveFieldsLoop OT PT skipIdx cnt toKebab (pre ++ (k, s) :: post) st = .ok st' →
      lookupAssoc st'.explicit k = some b := by
  intro pre
  induction pre with
  | nil =>
    intro post st st' _ hpost h
    rw [List.nil_append] at h
    unfold resolveFieldsLoop at h
    cases hf : resolveField OT PT skipIdx cnt toKebab st k s with
    | error e =>
      rw [hf] at h
      exact absurd h (by simp)
    | ok st2 =>
      rw [hf] at h
      dsimp only at h
      rw [resolveFieldsLoop_explicit_notmem OT PT skipIdx cnt toKebab k post st2 st' hpost h]
      exact hfield st st2 hf
  | cons f pre' ih =>
    intro post st st' hpre hpost h
    obtain ⟨rawArg, schema⟩ := f
    rw [List.cons_append] at h
    unfold resolveFieldsLoop at h
    cases hf : resolveField OT PT skipIdx cnt toKebab st rawArg schema with
    | error e =>
      rw [hf] at h
      exact absurd h (by simp)
    | ok st2 =>
      rw [hf] at h
      dsimp only at h
      exact ih post st2 st' (fun f hf' => hpre f (List.mem_cons_of_mem _ hf')) hpost h

lemma resolveArgs_ok_explicit (args : Args) (tokens : List ArgToken)
    (opts : ResolveArgsOptions) (r : ResolvedResult)
    (h : resolveArgs args tokens opts = .ok r) :
    ∃ st : ResolveState,
      resolveFieldsLoop (analyzeTokens args opts.shortGrouping tokens).optionTokens
        (analyzeTokens args opts.shortGrouping tokens).positionalTokens
        (max opts.skipPositional (-1))
        (tokens.filter (fun t => decide (t.kind = .positional))).length
        opts.toKebab args {} = .ok st ∧ r.explicit = st.explicit := by
  unfold resolveArgs at h
  dsimp only at h
  cases hloop : resolveFieldsLoop (analyzeTokens args opts.shortGrouping tokens).optionTokens
      (analyzeTokens args opts.shortGrouping tokens).positionalTokens
      (max opts.skipPositional (-1))
      (tokens.filter (fun t => decide (t.kind = .positional))).length
      opts.toKebab args {} with
  | error e =>
    rw [hloop] at h
    exact absurd h (by simp)
  | ok st =>
    rw [hloop] at h
    dsimp only at h
    cases h
    exact ⟨st, rfl, rfl⟩


theorem C5_explicit_tracking :
    (∀ (pre post : List (String × ArgSchema)) (k : String) (s : ArgSchema)
       (tokens : List ArgToken) (opts : ResolveArgsOptions) (r : ResolvedResult),
       (∀ f ∈ pre, ¬f.1 = k) → (∀ f ∈ post, ¬f.1 = k) →
       ¬s.type = ArgType.positional →
       resolveArgs (pre ++ (k, s) :: post) tokens opts = .ok r →
       lookupAssoc r.explicit k =
         some (!(s.required &&
             !requiredTokenFound (fieldArgName (opts.toKebab) k s) s
               (analyzeTokens (pre ++ (k, s) :: post) opts.shortGrouping
                 tokens).optionTokens) &&
           fieldTokenBound (fieldArgName (opts.toKebab) k s) s
             (analyzeTokens (pre ++ (k, s) :: post) opts.shortGrouping
               tokens).optionTokens)) ∧
    (∀ (pre post : List (String × ArgSchema)) (k : String) (s : ArgSchema)
       (tokens : List ArgToken) (opts : ResolveArgsOptions) (r : ResolvedResult),
       (∀ f ∈ pre, ¬f.1 = k) → (∀ f ∈ post, ¬f.1 = k) →
       s.type = ArgType.positional →
       (analyzeTokens (pre ++ (k, s) :: post) opts.shortGrouping
         tokens).positionalTokens = [] →
       resolveArgs (pre ++ (k, s) :: post) tokens opts = .ok r →
       lookupAssoc r.explicit k = some false) ∧
    (resolveArgs argsPort [] {}).map
      (fun r => (lookupAssoc r.values "port", lookupAssoc r.explicit "port")) =
      .ok (some (.num 8080), some false) ∧
    (resolveArgs argsPort (parseArgs ["--port", "8080"] false) {}).map
      (fun r => (lookupAssoc r.values "port", lookupAssoc r.explicit "port")) =
      .ok (some (.num 8080), some true) := by
  refine ⟨?_, ?_, ?_, ?_⟩
  · intro pre post k s tokens opts r hpre hpost hpos hres
    obtain ⟨st, hloop, hexp⟩ := resolveArgs_ok_explicit _ _ _ _ hres
    rw [hexp]
    exact resolveFieldsLoop_explicit_main _ _ _ _ _ k s _
      (fun st1 st2 hf => resolveField_explicit_self _ _ _ _ _ st1 st2 k s hpos hf)
      pre post {} st hpre hpost hloop
  · intro pre post k s tokens opts r hpre hpost hpos hPT hres
    obtain ⟨st, hloop, hexp⟩ := resolveArgs_ok_explicit _ _ _ _ hres
    rw [hexp]
    rw [hPT] at hloop
    exact resolveFieldsLoop_explicit_main _ _ _ _ _ k s false
      (fun st1 st2 hf =>
        resolveField_explicit_self_positional_nil _ _ _ _ st1 st2 k s hpos hf)
      pre post {} st hpre hpost hloop
  · rfl
  · rfl

theorem C5_explicit_tracking_witness :
    (resolveArgs argsPort (parseArgs ["--port", "9999"] false) {}).map
      (fun r => lookupAssoc r.explicit "port") = .ok (some true) := by
  cases hres : resolveArgs argsPort (parseArgs ["--port", "9999"] false) {} with
  | error e =>
    have hok : (resolveArgs argsPort (parseArgs ["--port", "9999"] false)
        {}).toOption.isSome = true := rfl
    rw [hres] at hok
    simp [Except.toOption] at hok
  | ok r =>
    have h := C5_explicit_tracking.1 [] [] "port"
      { type := .number, default := some (.num 8080) }
      (parseArgs ["--port", "9999"] false) {} r
      (by simp) (by simp) (by decide) hres
    simp only [Except.map]
    rw [h]
    rfl


-- schema-key containment and unknown-token behaviour (C8)

lemma resolveOptionTokens_keys (rawArg arg : String) (schema : ArgSchema) :
    ∀ (OT : List ArgToken) (st st' : ResolveState),
      resolveOptionTokens rawArg arg schema OT st = .ok st' →
      (∀ kv ∈ st'.values, kv.1 = rawArg ∨ kv ∈ st.values) ∧
      (∀ kb ∈ st'.explicit, kb.1 = rawArg ∨ kb ∈ st.explicit) := by
  intro OT
  induction OT with
  | nil =>
    intro st st' h
    cases h
    exact ⟨fun kv hkv => Or.inr hkv, fun kb hkb => Or.inr hkb⟩
  | cons tok rest ih =>
    intro st st' h
    unfold resolveOptionTokens at h
    by_cases hmt : matchesToken arg schema tok = true
    · rw [if_pos hmt] at h
      cases hv : validateRequire tok arg schema with
      | some e =>
        rw [hv] at h
        dsimp only at h
        obtain ⟨ihv, ihe⟩ := ih _ _ h
        exact ⟨fun kv hkv => ihv kv hkv, fun kb hkb => ihe kb hkb⟩
      | none =>
        rw [hv] at h
        dsimp only at h
        cases hp : parseToken tok arg schema with
        | error thrown =>
          rw [hp] at h
          exact absurd h (by simp)
        | ok inner =>
          rw [hp] at h
          cases inner with
          | error e =>
            dsimp only at h
            obtain ⟨ihv, ihe⟩ := ih _ _ h
            refine ⟨fun kv hkv => ?_, fun kb hkb => ?_⟩
            · rcases ihv kv hkv with h1 | h1
              · exact Or.inl h1
              · exact Or.inr h1
            · rcases ihe kb hkb with h1 | h1
              · exact Or.inl h1
              · dsimp only at h1
                rcases mem_setAssoc rawArg true _ kb h1 with h2 | h2
                · exact Or.inl h2
                · exact Or.inr h2
          | ok v =>
            dsimp only at h
            by_cases hmul : schema.multiple = true
            · rw [if_pos hmul] at h
              obtain ⟨ihv, ihe⟩ := ih _ _ h
              refine ⟨fun kv hkv => ?_, fun kb hkb => ?_⟩
              · rcases ihv kv hkv with h1 | h1
                · exact Or.inl h1
                · dsimp only at h1
                  rcases mem_setAssoc rawArg _ _ kv h1 with h2 | h2
                  · exact Or.inl h2
                  · exact Or.inr h2
              · rcases ihe kb hkb with h1 | h1
                · exact Or.inl h1
                · dsimp only at h1
                  rcases mem_setAssoc rawArg true _ kb h1 with h2 | h2
                  · exact Or.inl h2
                  · exact Or.inr h2
            · rw [if_neg hmul] at h
              obtain ⟨ihv, ihe⟩ := ih _ _ h
              refine ⟨fun kv hkv => ?_, fun kb hkb => ?_⟩
              · rcases ihv kv hkv with h1 | h1
                · exact Or.inl h1
                · dsimp only at h1
                  rcases mem_setAssoc rawArg v _ kv h1 with h2 | h2
                  · exact Or.inl h2
                  · exact Or.inr h2
              · rcases ihe kb hkb with h1 | h1
                · exact Or.inl h1
                · dsimp only at h1
                  rcases mem_setAssoc rawArg true _ kb h1 with h2 | h2
                  · exact Or.inl h2
                  · exact Or.inr h2
    · rw [if_neg hmt] at h
      exact ih _ _ h


lemma resolvePositionalField_keys (rawArg arg : String) (schema : ArgSchema)
    (PT : List ArgToken) (skipIdx : Int) (cnt : Nat) (st st' : ResolveState)
    (h : resolvePositionalField rawArg arg schema PT skipIdx cnt st = st') :
    (∀ kv ∈ st'.values, kv.1 = rawArg ∨ kv ∈ st.values) ∧
    (∀ kb ∈ st'.explicit, kb.1 = rawArg ∨ kb ∈ st.explicit) := by
  unfold resolvePositionalField at h
  repeat' split at h
  all_goals cases h
  all_goals constructor
  all_goals intro x hx
  all_goals dsimp only at hx
  all_goals repeat' split at hx
  all_goals dsimp only at hx
  all_goals
    first
      | exact Or.inr hx
      | exact mem_setAssoc rawArg _ _ _ hx


lemma resolveField_keys (OT PT : List ArgToken) (skipIdx : Int) (cnt : Nat)
    (toKebab : Bool) (st st' : ResolveState) (rawArg : String) (schema : ArgSchema)
    (h : resolveField OT PT skipIdx cnt toKebab st rawArg schema = .ok st') :
    (∀ kv ∈ st'.values, kv.1 = rawArg ∨ kv ∈ st.values) ∧
    (∀ kb ∈ st'.explicit, kb.1 = rawArg ∨ kb ∈ st.explicit) := by
  unfold resolveField at h
  dsimp only at h
  by_cases hpos : schema.type = ArgType.positional
  · rw [if_pos hpos] at h
    cases h
    obtain ⟨hv, he⟩ := resolvePositionalField_keys rawArg
      (fieldArgName toKebab rawArg schema) schema PT skipIdx cnt
      { st with explicit := setAssoc st.explicit rawArg false } _ rfl
    refine ⟨fun kv hkv => hv kv hkv, fun kb hkb => ?_⟩
    rcases he kb hkb with h1 | h1
    · exact Or.inl h1
    · exact mem_setAssoc rawArg _ _ _ h1
  · rw [if_neg hpos] at h
    by_cases hreq : (schema.required &&
        !requiredTokenFound (fieldArgName toKebab rawArg schema) schema OT) = true
    · rw [if_pos hreq] at h
      cases h
      refine ⟨fun kv hkv => Or.inr hkv, fun kb hkb => ?_⟩
      exact mem_setAssoc rawArg _ _ _ hkb
    · rw [if_neg hreq] at h
      cases hopt : resolveOptionTokens rawArg (fieldArgName toKebab rawArg schema) schema OT
          { st with explicit := setAssoc st.explicit rawArg false } with
      | error e =>
        rw [hopt] at h
        exact absurd h (by simp)
      | ok st2 =>
        rw [hopt] at h
        dsimp only at h
        obtain ⟨hv2, he2⟩ := resolveOptionTokens_keys rawArg
          (fieldArgName toKebab rawArg schema) schema OT _ _ hopt
        have hexp : ∀ kb ∈ st2.explicit, kb.1 = rawArg ∨ kb ∈ st.explicit := by
          intro kb hkb
          rcases he2 kb hkb with h1 | h1
          · exact Or.inl h1
          · exact mem_setAssoc rawArg _ _ _ h1
        by_cases hdef : (isNullish (lookupAssoc st2.values rawArg) &&
            schema.default.isSome) = true
        · rw [if_pos hdef] at h
          cases h
          refine ⟨fun kv hkv => ?_, hexp⟩
          dsimp only at hkv
          rcases mem_setAssoc rawArg _ _ _ hkv with h1 | h1
          · exact Or.inl h1
          · exact hv2 kv h1
        · rw [if_neg hdef] at h
          cases h
          exact ⟨hv2, hexp⟩

lemma resolveFieldsLoop_keys (OT PT : List ArgToken) (skipIdx : Int) (cnt : Nat)
    (toKebab : Bool) :
    ∀ (fields : List (String × ArgSchema)) (st st' : ResolveState),
      resolveFieldsLoop OT PT skipIdx cnt toKebab fields st = .ok st' →
      (∀ kv ∈ st'.values, fields.any (fun f => f.1 = kv.1) = true ∨ kv ∈ st.values) ∧
      (∀ kb ∈ st'.explicit, fields.any (fun f => f.1 = kb.1) = true ∨ kb ∈ st.explicit) := by
  intro fields
  induction fields with
  | nil =>
    intro st st' h
    cases h
    exact ⟨fun kv hkv => Or.inr hkv, fun kb hkb => Or.inr hkb⟩
  | cons f rest ih =>
    intro st st' h
    obtain ⟨rawArg, schema⟩ := f
    unfold resolveFieldsLoop at h
    cases hf : resolveField OT PT skipIdx cnt toKebab st rawArg schema with
    | error e =>
      rw [hf] at h
      exact absurd h (by simp)
    | ok st2 =>
      rw [hf] at h
      dsimp only at h
      obtain ⟨ihv, ihe⟩ := ih st2 st' h
      obtain ⟨fv, fe⟩ := resolveField_keys OT PT skipIdx cnt toKebab st st2 rawArg schema hf
      refine ⟨fun kv hkv => ?_, fun kb hkb => ?_⟩
      · rcases ihv kv hkv with h1 | h1
        · exact Or.inl (by simp only [List.any_cons, Bool.or_eq_true]; exact Or.inr h1)
        · rcases fv kv h1 with h2 | h2
          · exact Or.inl (by
              simp only [List.any_cons, Bool.or_eq_true, decide_eq_true_eq]
              exact Or.inl h2.symm)
          · exact Or.inr h2
      · rcases ihe kb hkb with h1 | h1
        · exact Or.inl (by simp only [List.any_cons, Bool.or_eq_true]; exact Or.inr h1)
        · rcases fe kb h1 with h2 | h2
          · exact Or.inl (by
              simp only [List.any_cons, Bool.or_eq_true, decide_eq_true_eq]
              exact Or.inl h2.symm)
          · exact Or.inr h2

lemma resolveArgs_keys (args : Args) (tokens : List ArgToken)
    (opts : ResolveArgsOptions) (r : ResolvedResult)
    (h : resolveArgs args tokens opts = .ok r) :
    (∀ kv ∈ r.values, args.any (fun f => f.1 = kv.1) = true) ∧
    (∀ kb ∈ r.explicit, args.any (fun f => f.1 = kb.1) = true) := by
  unfold resolveArgs at h
  dsimp only at h
  cases hloop : resolveFieldsLoop (analyzeTokens args opts.shortGrouping tokens).optionTokens
      (analyzeTokens args opts.shortGrouping tokens).positionalTokens
      (max opts.skipPositional (-1))
      (tokens.filter (fun t => decide (t.kind = .positional))).length
      opts.toKebab args {} with
  | error e =>
    rw [hloop] at h
    exact absurd h (by simp)
  | ok st =>
    rw [hloop] at h
    dsimp only at h
    cases h
    obtain ⟨hv, he⟩ := resolveFieldsLoop_keys _ _ _ _ _ args {} st hloop
    refine ⟨fun kv hkv => ?_, fun kb hkb => ?_⟩
    · rcases hv kv hkv with h1 | h1
      · exact h1
      · exact absurd h1 (List.not_mem_nil kv)
    · rcases he kb hkb with h1 | h1
      · exact h1
      · exact absurd h1 (List.not_mem_nil kb)


lemma applyShort_currentLong (st : AnalyzeState) (v : Option String) :
    (applyShortOptionValue st v).currentLong = st.currentLong := by
  unfold applyShortOptionValue
  repeat' split
  all_goals rfl

lemma analyze_flush_step_long (args : Args) (g : Bool) (S : AnalyzeState) (t : ArgToken)
    (hk : t.kind = .option) (hraw : strTruthy t.rawName = true)
    (hlong : hasLongOptionPrefix (t.rawName.getD "") = true)
    (hinline : ¬t.inlineValue = some true) :
    applyShortOptionValue (applyLongOptionValue (analyzeStep args g S t) none) none =
      { applyShortOptionValue (applyLongOptionValue S none) none with
        optionTokens := (applyShortOptionValue (applyLongOptionValue S none)
          none).optionTokens ++ [{ t with value := none }] } := by
  unfold analyzeStep
  rw [hk]
  dsimp only
  rw [hraw]
  simp only [if_true]
  rw [if_pos hlong, if_neg hinline]
  obtain ⟨OT, PT, R, CL, CS, EX, TM⟩ := S
  cases CL <;> cases CS
  all_goals simp [applyLongOptionValue, applyShortOptionValue, strTruthy, hk]
  all_goals (try split)
  all_goals simp [hk]


lemma analyzeTokens_append_long (args : Args) (g : Bool) (tokens : List ArgToken)
    (t : ArgToken) (hk : t.kind = .option) (hraw : strTruthy t.rawName = true)
    (hlong : hasLongOptionPrefix (t.rawName.getD "") = true)
    (hinline : ¬t.inlineValue = some true) :
    analyzeTokens args g (tokens ++ [t]) =
      { analyzeTokens args g tokens with
        optionTokens := (analyzeTokens args g tokens).optionTokens ++
          [{ t with value := none }] } := by
  unfold analyzeTokens
  rw [List.foldl_append]
  simp only [List.foldl_cons, List.foldl_nil]
  exact analyze_flush_step_long args g _ t hk hraw hlong hinline

lemma resolveOptionTokens_append_unmatched (rawArg arg : String) (schema : ArgSchema)
    (tv : ArgToken) (hm : ¬matchesToken arg schema tv = true) :
    ∀ (OT : List ArgToken) (st : ResolveState),
      resolveOptionTokens rawArg arg schema (OT ++ [tv]) st =
        resolveOptionTokens rawArg arg schema OT st := by
  intro OT
  induction OT with
  | nil =>
    intro st
    simp only [List.nil_append]
    unfold resolveOptionTokens
    rw [if_neg hm]
    rfl
  | cons tok rest ih =>
    intro st
    rw [List.cons_append]
    unfold resolveOptionTokens
    by_cases hmt : matchesToken arg schema tok = true
    · rw [if_pos hmt, if_pos hmt]
      cases hv : validateRequire tok arg schema with
      | some e =>
        dsimp only
        exact ih _
      | none =>
        dsimp only
        cases hp : parseToken tok arg schema with
        | error thrown => rfl
        | ok inner =>
          cases inner with
          | error e =>
            dsimp only
            exact ih _
          | ok v =>
            dsimp only
            by_cases hmul : schema.multiple = true
            · rw [if_pos hmul, if_pos hmul]
              exact ih _
            · rw [if_neg hmul, if_neg hmul]
              exact ih _
    · rw [if_neg hmt, if_neg hmt]
      exact ih _

lemma requiredTokenFound_append (arg : String) (schema : ArgSchema)
    (OT : List ArgToken) (tv : ArgToken)
    (hp : ¬requiredFoundPred arg schema tv = true) :
    requiredTokenFound arg schema (OT ++ [tv]) = requiredTokenFound arg schema OT := by
  unfold requiredTokenFound
  rw [List.any_append]
  simp only [List.any_cons, List.any_nil, Bool.or_false]
  rw [Bool.eq_false_iff.mpr hp, Bool.or_false]


lemma resolveField_append (OT PT : List ArgToken) (skipIdx : Int) (cnt : Nat)
    (toKebab : Bool) (st : ResolveState) (rawArg : String) (schema : ArgSchema)
    (tv : ArgToken)
    (hm : ¬matchesToken (fieldArgName toKebab rawArg schema) schema tv = true)
    (hr : ¬requiredFoundPred (fieldArgName toKebab rawArg schema) schema tv = true) :
    resolveField (OT ++ [tv]) PT skipIdx cnt toKebab st rawArg schema =
      resolveField OT PT skipIdx cnt toKebab st rawArg schema := by
  unfold resolveField
  dsimp only
  rw [requiredTokenFound_append _ _ OT tv hr,
    resolveOptionTokens_append_unmatched _ _ _ tv hm OT]

lemma resolveFieldsLoop_append (OT PT : List ArgToken) (skipIdx : Int) (cnt : Nat)
    (toKebab : Bool) (tv : ArgToken) :
    ∀ (fields : List (String × ArgSchema)) (st : ResolveState),
      (∀ f ∈ fields,
        ¬matchesToken (fieldArgName toKebab f.1 f.2) f.2 tv = true ∧
        ¬requiredFoundPred (fieldArgName toKebab f.1 f.2) f.2 tv = true) →
      resolveFieldsLoop (OT ++ [tv]) PT skipIdx cnt toKebab fields st =
        resolveFieldsLoop OT PT skipIdx cnt toKebab fields st := by
  intro fields
  induction fields with
  | nil => intro st _; rfl
  | cons f rest ih =>
    intro st hmem
    obtain ⟨rawArg, schema⟩ := f
    obtain ⟨hm, hr⟩ := hmem (rawArg, schema) (List.mem_cons_self _ _)
    unfold resolveFieldsLoop
    rw [resolveField_append OT PT skipIdx cnt toKebab st rawArg schema tv hm hr]
    cases hf : resolveField OT PT skipIdx cnt toKebab st rawArg schema with
    | error e => rfl
    | ok st2 =>
      dsimp only
      exact ih st2 (fun f hf' => hmem f (List.mem_cons_of_mem _ hf'))

lemma unmatched_of_names (toKebab : Bool) (rawArg : String) (schema : ArgSchema)
    (tv : ArgToken)
    (h1 : ¬tv.name = some (fieldArgName toKebab rawArg schema))
    (h2 : ¬tv.name = some ("no-" ++ fieldArgName toKebab rawArg schema))
    (h3 : ¬tv.name = schema.short) :
    ¬matchesToken (fieldArgName toKebab rawArg schema) schema tv = true ∧
    ¬requiredFoundPred (fieldArgName toKebab rawArg schema) schema tv = true := by
  constructor
  · intro hmt
    unfold matchesToken at hmt
    rcases Bool.or_eq_true_iff.mp hmt with hA | hB
    · rw [Bool.and_eq_true] at hA
      have hct := hA.1
      unfold checkTokenName at hct
      simp only [decide_eq_true_eq] at hct
      by_cases hb : schema.type = ArgType.boolean
      · rw [if_pos hb] at hct
        by_cases hneg : (schema.negatable &&
            match tv.name with | some n => n.startsWith "no-" | none => false) = true
        · rw [if_pos hneg] at hct
          exact h2 hct
        · rw [if_neg hneg] at hct
          exact h1 hct
      · rw [if_neg hb] at hct
        exact h1 hct
    · rw [Bool.and_eq_true] at hB
      have hshort := hB.1
      rw [decide_eq_true_eq] at hshort
      exact h3 hshort.symm
  · intro hrf
    unfold requiredFoundPred at hrf
    rcases Bool.or_eq_true_iff.mp hrf with hA | hB
    · rw [Bool.and_eq_true] at hA
      have hn := hA.2
      rw [decide_eq_true_eq] at hn
      exact h3 hn
    · rw [Bool.and_eq_true, Bool.and_eq_true] at hB
      have hn := hB.2
      rw [decide_eq_true_eq] at hn
      exact h1 hn

lemma resolveArgs_append_unknown_long (args : Args) (tokens : List ArgToken)
    (opts : ResolveArgsOptions) (t : ArgToken)
    (hk : t.kind = .option) (hraw : strTruthy t.rawName = true)
    (hlong : hasLongOptionPrefix (t.rawName.getD "") = true)
    (hinline : ¬t.inlineValue = some true)
    (hnames : ∀ f ∈ args,
      ¬t.name = some (fieldArgName opts.toKebab f.1 f.2) ∧
      ¬t.name = some ("no-" ++ fieldArgName opts.toKebab f.1 f.2) ∧
      ¬t.name = f.2.short) :
    resolveArgs args (tokens ++ [t]) opts = resolveArgs args tokens opts := by
  unfold resolveArgs
  dsimp only
  rw [analyzeTokens_append_long args opts.shortGrouping tokens t hk hraw hlong hinline]
  dsimp only
  rw [List.filter_append]
  have hfil : List.filter (fun tk => decide (tk.kind = ArgTokenKind.positional)) [t] = [] := by
    simp [List.filter_cons, hk]
  rw [hfil, List.append_nil]
  rw [resolveFieldsLoop_append _ _ _ _ _ { t with value := none } args {}
    (fun f hf => by
      obtain ⟨h1, h2, h3⟩ := hnames f hf
      exact unmatched_of_names opts.toKebab f.1 f.2 { t with value := none } h1 h2 h3)]


/-- C8 counterexample: in `parseArgs ["-p9"]` the second token has name `9`,
which matches no schema key of `argsShortP` and no short alias; yet resolving
against `argsShortP` yields `p = "9"` — the unknown-named token contributed
its name as the value of `-p` (the token-reassembly pass folds grouped-short
names into the preceding option's value).  Dropping that token instead leaves
`p` unbound with a Type error, so the unknown token is not silently ignored. -/
theorem C8_unknown_grouped_counterexample :
    argsShortP.all (fun f => !(decide (f.1 = "9")) && !(decide (f.2.short = some "9"))) =
      true ∧
    (parseArgs ["-p9"] false).map (fun t => (t.kind, t.name, t.rawName, t.value)) =
      [(.option, some "p", some "-p", none), (.option, some "9", some "-9", none)] ∧
    resolveArgs argsShortP (parseArgs ["-p9"] false) {} =
      .ok { values := [("p", .str "9")], positionals := [], rest := [],
            error := none, explicit := [("p", true)] } ∧
    resolveArgs argsShortP [⟨.option, 0, some "p", some "-p", none, none⟩] {} =
      .ok { values := [], positionals := [], rest := [],
            error := some [.argResolve ("Optional argument " ++ apos ++ "--p" ++ apos ++
              " or " ++ apos ++ "-p" ++ apos ++ " should be " ++ apos ++ "string" ++ apos)
              "p" .type],
            explicit := [("p", true)] } :=
  ⟨by decide, by decide, rfl, rfl⟩

/-- C8 (amended): every key of the returned `values` and `explicit` mappings
is a key of the schema; and an appended option token in long form
(`rawName` containing `--`, not inline-valued) whose name matches no schema
key — in plain, kebab-translated, or negatable `no-` form — and differs from
every short alias is silently ignored: the result is unchanged.  (A
grouped-short token with an unknown name is not ignored: its name is folded
into the preceding short option's value, see the counterexample.) -/
theorem C8_keys_and_unknown_long_ignored :
    (∀ (args : Args) (tokens : List ArgToken) (opts : ResolveArgsOptions)
        (r : ResolvedResult),
      resolveArgs args tokens opts = .ok r →
      (∀ kv ∈ r.values, args.any (fun f => f.1 = kv.1) = true) ∧
      (∀ kb ∈ r.explicit, args.any (fun f => f.1 = kb.1) = true)) ∧
    (∀ (args : Args) (tokens : List ArgToken) (opts : ResolveArgsOptions)
        (t : ArgToken),
      t.kind = .option → strTruthy t.rawName = true →
      hasLongOptionPrefix (t.rawName.getD "") = true →
      ¬t.inlineValue = some true →
      (∀ f ∈ args,
        ¬t.name = some (fieldArgName opts.toKebab f.1 f.2) ∧
        ¬t.name = some ("no-" ++ fieldArgName opts.toKebab f.1 f.2) ∧
        ¬t.name = f.2.short) →
      resolveArgs args (tokens ++ [t]) opts = resolveArgs args tokens opts) :=
  ⟨fun args tokens opts r h => resolveArgs_keys args tokens opts r h,
   fun args tokens opts t hk hraw hlong hinline hnames =>
     resolveArgs_append_unknown_long args tokens opts t hk hraw hlong hinline hnames⟩

/-- Witness for C8 at a concrete schema, token list and appended token. -/
theorem C8_keys_witness :
    resolveArgs argsPort
        (parseArgs ["--port", "8080"] false ++
          [⟨.option, 9, some "verbose", some "--verbose", none, none⟩]) {} =
      resolveArgs argsPort (parseArgs ["--port", "8080"] false) {} :=
  C8_keys_and_unknown_long_ignored.2 argsPort (parseArgs ["--port", "8080"] false) {}
    ⟨.option, 9, some "verbose", some "--verbose", none, none⟩
    rfl (by decide) (by decide) (by decide)
    (by
      intro f hf
      simp only [argsPort, List.mem_singleton] at hf
      subst hf
      exact ⟨by decide, by decide, by decide⟩)


-- totality of the resolver under the no-throw side conditions (C1)

lemma parseToken_ok (tok : ArgToken) (arg : String) (schema : ArgSchema)
    (hcustom : schema.type = ArgType.custom → schema.parse.isSome = true)
    (hnum : schema.type = ArgType.number → schema.parse = none → tok.value.isSome = true)
    (hbool : schema.type = ArgType.boolean → schema.negatable = true →
      tok.name.isSome = true)
    (hpos : ¬schema.type = ArgType.positional) :
    ∃ inner, parseToken tok arg schema = .ok inner := by
  unfold parseToken
  cases hp : schema.parse with
  | some f =>
    dsimp only
    by_cases hb : schema.type = ArgType.boolean
    · rw [if_pos hb]
      by_cases hneg : schema.negatable = true
      · rw [if_pos hneg]
        cases hn : tok.name with
        | none =>
          have := hbool hb hneg
          rw [hn] at this
          exact absurd this (by simp)
        | some n =>
          dsimp only
          cases hf : f (jsValueToString (.bool (!(n.startsWith "no-")))) with
          | ok v => exact ⟨.ok v, rfl⟩
          | error e => exact ⟨.error e, rfl⟩
      · rw [if_neg hneg]
        cases hf : f (jsValueToString (.bool true)) with
        | ok v => exact ⟨.ok v, rfl⟩
        | error e => exact ⟨.error e, rfl⟩
    · rw [if_neg hb]
      cases hf : f (match tok.value with
        | some v => v
        | none => jsValueToString (schema.default.getD (.str ""))) with
      | ok v => exact ⟨.ok v, rfl⟩
      | error e => exact ⟨.error e, rfl⟩
  | none =>
    dsimp only
    cases ht : schema.type with
    | string =>
      dsimp only
      cases hv : tok.value with
      | some v => exact ⟨_, rfl⟩
      | none => exact ⟨_, rfl⟩
    | boolean =>
      dsimp only
      by_cases hneg : schema.negatable = true
      · rw [if_pos hneg]
        cases hn : tok.name with
        | none =>
          have := hbool ht hneg
          rw [hn] at this
          exact absurd this (by simp)
        | some n => exact ⟨_, rfl⟩
      · rw [if_neg hneg]
        exact ⟨_, rfl⟩
    | number =>
      dsimp only
      cases hv : tok.value with
      | none =>
        have := hnum ht hp
        rw [hv] at this
        exact absurd this (by simp)
      | some v =>
        dsimp only
        by_cases hnv : (!isNumeric v) = true
        · rw [if_pos hnv]
          exact ⟨_, rfl⟩
        · rw [if_neg hnv]
          by_cases hne : v ≠ ""
          · rw [if_pos hne]
            exact ⟨_, rfl⟩
          · rw [if_neg hne]
            exact ⟨_, rfl⟩
    | enum =>
      dsimp only
      cases hc : schema.choices with
      | some cs =>
        dsimp only
        by_cases hin : (!(match tok.value with | some v => cs.contains v | none => false)) = true
        · rw [if_pos hin]
          exact ⟨_, rfl⟩
        · rw [if_neg hin]
          exact ⟨_, rfl⟩
      | none => exact ⟨_, rfl⟩
    | custom =>
      have := hcustom ht
      rw [hp] at this
      exact absurd this (by simp)
    | positional => exact absurd ht hpos


lemma resolveOptionTokens_ok (rawArg arg : String) (schema : ArgSchema)
    (hpos : ¬schema.type = ArgType.positional)
    (hcustom : schema.type = ArgType.custom → schema.parse.isSome = true) :
    ∀ (OT : List ArgToken) (st : ResolveState),
      (∀ tok ∈ OT, matchesToken arg schema tok = true →
        (schema.type = ArgType.number → schema.parse = none → tok.value.isSome = true) ∧
        (schema.type = ArgType.boolean → schema.negatable = true →
          tok.name.isSome = true)) →
      ∃ st', resolveOptionTokens rawArg arg schema OT st = .ok st' := by
  intro OT
  induction OT with
  | nil =>
    intro st _
    exact ⟨st, rfl⟩
  | cons tok rest ih =>
    intro st hm
    have htail : ∀ tok' ∈ rest, matchesToken arg schema tok' = true →
        (schema.type = ArgType.number → schema.parse = none → tok'.value.isSome = true) ∧
        (schema.type = ArgType.boolean → schema.negatable = true →
          tok'.name.isSome = true) :=
      fun tok' h' => hm tok' (List.mem_cons_of_mem _ h')
    unfold resolveOptionTokens
    by_cases hmt : matchesToken arg schema tok = true
    · rw [if_pos hmt]
      obtain ⟨hnum, hbool⟩ := hm tok (List.mem_cons_self _ _) hmt
      cases hv : validateRequire tok arg schema with
      | some e => exact ih _ htail
      | none =>
        dsimp only
        obtain ⟨inner, hpt⟩ := parseToken_ok tok arg schema hcustom hnum hbool hpos
        rw [hpt]
        cases inner with
        | error e =>
          dsimp only
          exact ih _ htail
        | ok v =>
          dsimp only
          by_cases hmul : schema.multiple = true
          · rw [if_pos hmul]
            exact ih _ htail
          · rw [if_neg hmul]
            exact ih _ htail
    · rw [if_neg hmt]
      exact ih _ htail

lemma resolveField_ok (OT PT : List ArgToken) (skipIdx : Int) (cnt : Nat)
    (toKebab : Bool) (st : ResolveState) (rawArg : String) (schema : ArgSchema)
    (hcustom : schema.type = ArgType.custom → schema.parse.isSome = true)
    (hm : ∀ tok ∈ OT,
      matchesToken (fieldArgName toKebab rawArg schema) schema tok = true →
      (schema.type = ArgType.number → schema.parse = none → tok.value.isSome = true) ∧
      (schema.type = ArgType.boolean → schema.negatable = true →
        tok.name.isSome = true)) :
    ∃ st', resolveField OT PT skipIdx cnt toKebab st rawArg schema = .ok st' := by
  unfold resolveField
  dsimp only
  by_cases hpos : schema.type = ArgType.positional
  · rw [if_pos hpos]
    exact ⟨_, rfl⟩
  · rw [if_neg hpos]
    by_cases hreq : (schema.required &&
        !requiredTokenFound (fieldArgName toKebab rawArg schema) schema OT) = true
    · rw [if_pos hreq]
      exact ⟨_, rfl⟩
    · rw [if_neg hreq]
      obtain ⟨st2, h2⟩ := resolveOptionTokens_ok rawArg
        (fieldArgName toKebab rawArg schema) schema hpos hcustom OT
        { st with explicit := setAssoc st.explicit rawArg false } hm
      rw [h2]
      dsimp only
      by_cases hdef : (isNullish (lookupAssoc st2.values rawArg) &&
          schema.default.isSome) = true
      · rw [if_pos hdef]
        exact ⟨_, rfl⟩
      · rw [if_neg hdef]
        exact ⟨st2, rfl⟩

lemma resolveFieldsLoop_ok (OT PT : List ArgToken) (skipIdx : Int) (cnt : Nat)
    (toKebab : Bool) :
    ∀ (fields : List (String × ArgSchema)) (st : ResolveState),
      (∀ f ∈ fields,
        (f.2.type = ArgType.custom → f.2.parse.isSome = true) ∧
        (∀ tok ∈ OT,
          matchesToken (fieldArgName toKebab f.1 f.2) f.2 tok = true →
          (f.2.type = ArgType.number → f.2.parse = none → tok.value.isSome = true) ∧
          (f.2.type = ArgType.boolean → f.2.negatable = true →
            tok.name.isSome = true))) →
      ∃ st', resolveFieldsLoop OT PT skipIdx cnt toKebab fields st = .ok st' := by
  intro fields
  induction fields with
  | nil =>
    intro st _
    exact ⟨st, rfl⟩
  | cons f rest ih =>
    intro st hf
    obtain ⟨rawArg, schema⟩ := f
    obtain ⟨hcustom, hm⟩ := hf (rawArg, schema) (List.mem_cons_self _ _)
    unfold resolveFieldsLoop
    obtain ⟨st2, h2⟩ := resolveField_ok OT PT skipIdx cnt toKebab st rawArg schema
      hcustom hm
    rw [h2]
    dsimp only
    exact ih st2 (fun f' h' => hf f' (List.mem_cons_of_mem _ h'))



/-- C1 counterexample: two inputs on which `resolveArgs` throws instead of
collecting an error: a `custom`-typed field without a `parse` function, and a
number-typed field matched by an option token with an absent value (the
source calls `token.value!.trim()` via `isNumeric`). -/
theorem C1_throw_counterexample :
    resolveArgs argsCustomNoParse (parseArgs ["--x", "v"] false) {} =
      .error (.typeError ("argument " ++ apos ++ "x" ++ apos ++ " should have a " ++
        apos ++ "parse" ++ apos ++ " function")) ∧
    resolveArgs argsNumber [⟨.option, 0, some "port", some "--port", none, none⟩] {} =
      .error (.typeError "Cannot read properties of undefined (reading trim)") :=
  ⟨rfl, rfl⟩

/-- C1 (amended): `resolveArgs` returns normally (collecting Required, Type
and Conflict failures into the error aggregate) whenever every custom-typed
field has a `parse` function, every number-typed field without `parse` is
matched only by tokens carrying a value, and every negatable boolean field
is matched only by tokens carrying a name; outside these conditions it can
throw (see the counterexample). -/
theorem C1_totality_amended (args : Args) (tokens : List ArgToken)
    (opts : ResolveArgsOptions)
    (h : ∀ f ∈ args,
      (f.2.type = ArgType.custom → f.2.parse.isSome = true) ∧
      (∀ tok ∈ (analyzeTokens args opts.shortGrouping tokens).optionTokens,
        matchesToken (fieldArgName opts.toKebab f.1 f.2) f.2 tok = true →
        (f.2.type = ArgType.number → f.2.parse = none → tok.value.isSome = true) ∧
        (f.2.type = ArgType.boolean → f.2.negatable = true →
          tok.name.isSome = true))) :
    ∃ r, resolveArgs args tokens opts = .ok r := by
  unfold resolveArgs
  dsimp only
  have hex := resolveFieldsLoop_ok
    (analyzeTokens args opts.shortGrouping tokens).optionTokens
    (analyzeTokens args opts.shortGrouping tokens).positionalTokens
    (max opts.skipPositional (-1))
    (tokens.filter (fun t : ArgToken =>
      decide (t.kind = ArgTokenKind.positional))).length
    opts.toKebab args {} h
  obtain ⟨st, hst⟩ := hex
  cases hloop : resolveFieldsLoop (analyzeTokens args opts.shortGrouping tokens).optionTokens
      (analyzeTokens args opts.shortGrouping tokens).positionalTokens
      (max opts.skipPositional (-1))
      (tokens.filter (fun t : ArgToken =>
        decide (t.kind = ArgTokenKind.positional))).length
      opts.toKebab args {} with
  | error e =>
    rw [hst] at hloop
    exact absurd hloop (by simp)
  | ok st2 =>
    exact ⟨_, rfl⟩

/-- Witness for C1 at a concrete schema and token list. -/
theorem C1_totality_witness :
    ∃ r, resolveArgs argsPort (parseArgs ["--port", "8080"] false) {} = .ok r :=
  C1_totality_amended argsPort (parseArgs ["--port", "8080"] false) {}
    (by
      intro f hf
      simp only [argsPort, List.mem_singleton] at hf
      subst hf
      refine ⟨fun hc => absurd hc (by decide), ?_⟩
      intro tok htok hmt
      simp only [show (analyzeTokens argsPort false
          (parseArgs ["--port", "8080"] false)).optionTokens =
          [⟨.option, 0, some "port", some "--port", some "8080", none⟩] from rfl,
        List.mem_singleton] at htok
      subst htok
      exact ⟨fun _ _ => by decide, fun hb => absurd hb (by decide)⟩)

end ArgsTokens
